import Mathlib

/-!
Shallow embedding of the SFEN text-notation engine (side, column, row,
square, piece, hands, board, move, position, game record) together with
proofs about its parsers and formatters.  Parsers operate on an
offset-tracked character slice mirroring the byte substrate of the code;
a dedicated `panic` result models Rust runtime panics (out-of-bounds
indexing), which are otherwise unreachable.
-/

namespace Sfen

/-- Parse error: malformed input at an offset, or extra trailing input. -/
inductive SfenParseError where
  | invalidInput (offset : Nat) (description : String)
  | extra (offset : Nat)
deriving DecidableEq

/-- Offset carried by an error. -/
def SfenParseError.offset : SfenParseError → Nat
  | .invalidInput o _ => o
  | .extra o => o

/-- Result of a parser step: `panic` models a Rust runtime panic. -/
inductive PRes (α : Type) where
  | panic
  | err (e : SfenParseError)
  | ok (v : α)
deriving DecidableEq

/-- Offset-tracked character slice (the byte substrate). -/
structure Bytes where
  buf : List Char
  off : Nat
deriving DecidableEq

def Bytes.ofString (s : String) : Bytes := ⟨s.data, 0⟩

def Bytes.len (b : Bytes) : Nat := b.buf.length

def Bytes.isEmpty (b : Bytes) : Bool := b.buf.isEmpty

def Bytes.get (b : Bytes) (i : Nat) : Option Char := b.buf.get? i

def Bytes.rangeFrom (b : Bytes) (n : Nat) : Bytes := ⟨b.buf.drop n, b.off + n⟩

def Bytes.rangeTo (b : Bytes) (n : Nat) : Bytes := ⟨b.buf.take n, b.off⟩

/-- Run a parse function to completion: non-empty remainder is `extra`. -/
def parseComplete {α : Type} (f : Bytes → PRes (Bytes × α)) (b : Bytes) : PRes α :=
  match f b with
  | .panic => .panic
  | .err e => .err e
  | .ok (remain, v) => if remain.buf.isEmpty then .ok v else .err (.extra remain.off)

/-- The two sides. -/
inductive Side where
  | sente
  | gote
deriving DecidableEq

/-- Columns, `col9` is the leftmost in the notation (digit '9'). -/
inductive Col where
  | col9 | col8 | col7 | col6 | col5 | col4 | col3 | col2 | col1
deriving DecidableEq

def Col.toIndex : Col → Nat
  | .col9 => 0 | .col8 => 1 | .col7 => 2 | .col6 => 3 | .col5 => 4
  | .col4 => 5 | .col3 => 6 | .col2 => 7 | .col1 => 8

/-- All columns in ascending index order (`Col::all_private`). -/
def colAll : List Col :=
  [.col9, .col8, .col7, .col6, .col5, .col4, .col3, .col2, .col1]

/-- Rows, `row1` is the topmost (letter 'a'). -/
inductive Row where
  | row1 | row2 | row3 | row4 | row5 | row6 | row7 | row8 | row9
deriving DecidableEq

def Row.toIndex : Row → Nat
  | .row1 => 0 | .row2 => 1 | .row3 => 2 | .row4 => 3 | .row5 => 4
  | .row6 => 5 | .row7 => 6 | .row8 => 7 | .row9 => 8

def rowAll : List Row :=
  [.row1, .row2, .row3, .row4, .row5, .row6, .row7, .row8, .row9]

def sideOfChar (c : Char) : Option Side :=
  if c = 'b' then some .sente
  else if c = 'w' then some .gote
  else none

def Side.parse (b : Bytes) : PRes (Bytes × Side) :=
  match b.buf with
  | [] => .err (.invalidInput b.off "`Side` ('b' | 'w') expected")
  | c :: rest =>
    match sideOfChar c with
    | some s => .ok (⟨rest, b.off + 1⟩, s)
    | none => .err (.invalidInput b.off "`Side` ('b' | 'w') expected")

def sideChar : Side → Char
  | .sente => 'b'
  | .gote => 'w'

def fmtSide (s : Side) : List Char := [sideChar s]

def colOfChar (c : Char) : Option Col :=
  if c = '9' then some .col9
  else if c = '8' then some .col8
  else if c = '7' then some .col7
  else if c = '6' then some .col6
  else if c = '5' then some .col5
  else if c = '4' then some .col4
  else if c = '3' then some .col3
  else if c = '2' then some .col2
  else if c = '1' then some .col1
  else none

def Col.parse (b : Bytes) : PRes (Bytes × Col) :=
  match b.buf with
  | [] => .err (.invalidInput b.off "`Col` ([1-9]) expected")
  | c :: rest =>
    match colOfChar c with
    | some v => .ok (⟨rest, b.off + 1⟩, v)
    | none => .err (.invalidInput b.off "`Col` ([1-9]) expected")

def colChar : Col → Char
  | .col9 => '9' | .col8 => '8' | .col7 => '7' | .col6 => '6' | .col5 => '5'
  | .col4 => '4' | .col3 => '3' | .col2 => '2' | .col1 => '1'

def rowOfChar (c : Char) : Option Row :=
  if c = 'a' then some .row1
  else if c = 'b' then some .row2
  else if c = 'c' then some .row3
  else if c = 'd' then some .row4
  else if c = 'e' then some .row5
  else if c = 'f' then some .row6
  else if c = 'g' then some .row7
  else if c = 'h' then some .row8
  else if c = 'i' then some .row9
  else none

def Row.parse (b : Bytes) : PRes (Bytes × Row) :=
  match b.buf with
  | [] => .err (.invalidInput b.off "`Row` ([a-i]) expected")
  | c :: rest =>
    match rowOfChar c with
    | some v => .ok (⟨rest, b.off + 1⟩, v)
    | none => .err (.invalidInput b.off "`Row` ([a-i]) expected")

def rowChar : Row → Char
  | .row1 => 'a' | .row2 => 'b' | .row3 => 'c' | .row4 => 'd' | .row5 => 'e'
  | .row6 => 'f' | .row7 => 'g' | .row8 => 'h' | .row9 => 'i'

/-- A square is a column/row pair (the 81-value enum of the code is this
pair flattened; `Square::new`, `col` and `row` are pairing and the two
projections). -/
structure Square where
  col : Col
  row : Row
deriving DecidableEq

def Square.new (c : Col) (r : Row) : Square := ⟨c, r⟩

def Square.parse (b : Bytes) : PRes (Bytes × Square) :=
  match Col.parse b with
  | .panic => .panic
  | .err e => .err e
  | .ok (b1, c) =>
    match Row.parse b1 with
    | .panic => .panic
    | .err e => .err e
    | .ok (b2, r) => .ok (b2, Square.new c r)

def fmtSquare (sq : Square) : List Char := [colChar sq.col, rowChar sq.row]

/-- Piece kinds (14 values). -/
inductive PieceKind where
  | pawn | lance | knight | silver | bishop | rook | gold | king
  | proPawn | proLance | proKnight | proSilver | horse | dragon
deriving DecidableEq

/-- A piece is a (side, kind) pair; the 28-value enum of the code is this
pair flattened, with `Piece::new`, `side` and `kind` the pairing and
projections. -/
structure Piece where
  side : Side
  kind : PieceKind
deriving DecidableEq

def rawPieceOfChar (c : Char) : Option Piece :=
  if c = 'P' then some ⟨.sente, .pawn⟩
  else if c = 'L' then some ⟨.sente, .lance⟩
  else if c = 'N' then some ⟨.sente, .knight⟩
  else if c = 'S' then some ⟨.sente, .silver⟩
  else if c = 'B' then some ⟨.sente, .bishop⟩
  else if c = 'R' then some ⟨.sente, .rook⟩
  else if c = 'G' then some ⟨.sente, .gold⟩
  else if c = 'K' then some ⟨.sente, .king⟩
  else if c = 'p' then some ⟨.gote, .pawn⟩
  else if c = 'l' then some ⟨.gote, .lance⟩
  else if c = 'n' then some ⟨.gote, .knight⟩
  else if c = 's' then some ⟨.gote, .silver⟩
  else if c = 'b' then some ⟨.gote, .bishop⟩
  else if c = 'r' then some ⟨.gote, .rook⟩
  else if c = 'g' then some ⟨.gote, .gold⟩
  else if c = 'k' then some ⟨.gote, .king⟩
  else none

def Piece.parseRaw (b : Bytes) : PRes (Bytes × Piece) :=
  match b.buf with
  | [] => .err (.invalidInput b.off "raw piece expected")
  | c :: rest =>
    match rawPieceOfChar c with
    | some pc => .ok (⟨rest, b.off + 1⟩, pc)
    | none => .err (.invalidInput b.off "raw piece expected")

def promotedPieceOfChar (c : Char) : Option Piece :=
  if c = 'P' then some ⟨.sente, .proPawn⟩
  else if c = 'L' then some ⟨.sente, .proLance⟩
  else if c = 'N' then some ⟨.sente, .proKnight⟩
  else if c = 'S' then some ⟨.sente, .proSilver⟩
  else if c = 'B' then some ⟨.sente, .horse⟩
  else if c = 'R' then some ⟨.sente, .dragon⟩
  else if c = 'p' then some ⟨.gote, .proPawn⟩
  else if c = 'l' then some ⟨.gote, .proLance⟩
  else if c = 'n' then some ⟨.gote, .proKnight⟩
  else if c = 's' then some ⟨.gote, .proSilver⟩
  else if c = 'b' then some ⟨.gote, .horse⟩
  else if c = 'r' then some ⟨.gote, .dragon⟩
  else none

def Piece.parsePromoted (b : Bytes) : PRes (Bytes × Piece) :=
  match b.buf with
  | [] => .err (.invalidInput b.off "promoted piece expected")
  | c :: rest =>
    match promotedPieceOfChar c with
    | some pc => .ok (⟨rest, b.off + 1⟩, pc)
    | none => .err (.invalidInput b.off "promoted piece expected")

def Piece.parse (b : Bytes) : PRes (Bytes × Piece) :=
  if b.get 0 = some '+' then Piece.parsePromoted (b.rangeFrom 1)
  else Piece.parseRaw b

def fmtPiece (pc : Piece) : List Char :=
  match pc.side, pc.kind with
  | .sente, .pawn => ['P']
  | .sente, .lance => ['L']
  | .sente, .knight => ['N']
  | .sente, .silver => ['S']
  | .sente, .bishop => ['B']
  | .sente, .rook => ['R']
  | .sente, .gold => ['G']
  | .sente, .king => ['K']
  | .sente, .proPawn => ['+', 'P']
  | .sente, .proLance => ['+', 'L']
  | .sente, .proKnight => ['+', 'N']
  | .sente, .proSilver => ['+', 'S']
  | .sente, .horse => ['+', 'B']
  | .sente, .dragon => ['+', 'R']
  | .gote, .pawn => ['p']
  | .gote, .lance => ['l']
  | .gote, .knight => ['n']
  | .gote, .silver => ['s']
  | .gote, .bishop => ['b']
  | .gote, .rook => ['r']
  | .gote, .gold => ['g']
  | .gote, .king => ['k']
  | .gote, .proPawn => ['+', 'p']
  | .gote, .proLance => ['+', 'l']
  | .gote, .proKnight => ['+', 'n']
  | .gote, .proSilver => ['+', 's']
  | .gote, .horse => ['+', 'b']
  | .gote, .dragon => ['+', 'r']

/-- Decimal rendering of a natural number (Rust `{}` integer formatting),
with structural fuel; `natDecimal` supplies enough fuel for any input. -/
def natDecimalGo : Nat → Nat → List Char
  | 0, _ => []
  | f + 1, n =>
    if n < 10 then [Char.ofNat (48 + n)]
    else natDecimalGo f (n / 10) ++ [Char.ofNat (48 + n % 10)]

def natDecimal (n : Nat) : List Char := natDecimalGo (n + 1) n

/-- The seven kinds a captured piece can have. -/
inductive HandPieceKind where
  | pawn | lance | knight | silver | bishop | rook | gold
deriving DecidableEq

def handPieceKindOfChar (c : Char) : Option HandPieceKind :=
  if c = 'P' then some .pawn
  else if c = 'L' then some .lance
  else if c = 'N' then some .knight
  else if c = 'S' then some .silver
  else if c = 'B' then some .bishop
  else if c = 'R' then some .rook
  else if c = 'G' then some .gold
  else none

def HandPieceKind.parse (b : Bytes) : PRes (Bytes × HandPieceKind) :=
  match b.buf with
  | [] => .err (.invalidInput b.off "hand piece kind expected")
  | c :: rest =>
    match handPieceKindOfChar c with
    | some v => .ok (⟨rest, b.off + 1⟩, v)
    | none => .err (.invalidInput b.off "hand piece kind expected")

def handPieceChar : HandPieceKind → Char
  | .pawn => 'P' | .lance => 'L' | .knight => 'N' | .silver => 'S'
  | .bishop => 'B' | .rook => 'R' | .gold => 'G'

/-- One side's captured pieces (counts are u8 in the code; saturating
addition keeps them below 256). -/
structure Hand where
  pawn : Nat
  lance : Nat
  knight : Nat
  silver : Nat
  bishop : Nat
  rook : Nat
  gold : Nat
deriving DecidableEq

def Hand.empty : Hand := ⟨0, 0, 0, 0, 0, 0, 0⟩

def Hand.getc (h : Hand) : HandPieceKind → Nat
  | .pawn => h.pawn
  | .lance => h.lance
  | .knight => h.knight
  | .silver => h.silver
  | .bishop => h.bishop
  | .rook => h.rook
  | .gold => h.gold

def Hand.setc (h : Hand) : HandPieceKind → Nat → Hand
  | .pawn, v => { h with pawn := v }
  | .lance, v => { h with lance := v }
  | .knight, v => { h with knight := v }
  | .silver, v => { h with silver := v }
  | .bishop, v => { h with bishop := v }
  | .rook, v => { h with rook := v }
  | .gold, v => { h with gold := v }

/-- Both sides' captured pieces. -/
structure Hands where
  sente : Hand
  gote : Hand
deriving DecidableEq

def Hands.empty : Hands := ⟨Hand.empty, Hand.empty⟩

def Hands.getc (h : Hands) (s : Side) (k : HandPieceKind) : Nat :=
  match s with
  | .sente => h.sente.getc k
  | .gote => h.gote.getc k

def Hands.setc (h : Hands) (s : Side) (k : HandPieceKind) (v : Nat) : Hands :=
  match s with
  | .sente => { h with sente := h.sente.setc k v }
  | .gote => { h with gote := h.gote.setc k v }

/-- u8 saturating addition. -/
def satAdd (a b : Nat) : Nat := min (a + b) 255

/-- One hand element: an optional 1-2 digit count then a cased letter. -/
structure HandsElem where
  side : Side
  kind : HandPieceKind
  count : Nat
deriving DecidableEq

def parseHandCount (b : Bytes) : PRes (Bytes × Nat) :=
  match b.buf with
  | [] => .err (.invalidInput b.off "hand piece count expected")
  | c :: rest =>
    if '1' ≤ c ∧ c ≤ '9' then
      let count := c.toNat - 48
      match rest with
      | c2 :: rest2 =>
        if '0' ≤ c2 ∧ c2 ≤ '9' then
          .ok (⟨rest2, b.off + 2⟩, 10 * count + (c2.toNat - 48))
        else .ok (⟨rest, b.off + 1⟩, count)
      | [] => .ok (⟨rest, b.off + 1⟩, count)
    else .err (.invalidInput b.off "hand piece count expected")

def handPieceOfChar (c : Char) : Option (Side × HandPieceKind) :=
  if c = 'P' then some (.sente, .pawn)
  else if c = 'L' then some (.sente, .lance)
  else if c = 'N' then some (.sente, .knight)
  else if c = 'S' then some (.sente, .silver)
  else if c = 'B' then some (.sente, .bishop)
  else if c = 'R' then some (.sente, .rook)
  else if c = 'G' then some (.sente, .gold)
  else if c = 'p' then some (.gote, .pawn)
  else if c = 'l' then some (.gote, .lance)
  else if c = 'n' then some (.gote, .knight)
  else if c = 's' then some (.gote, .silver)
  else if c = 'b' then some (.gote, .bishop)
  else if c = 'r' then some (.gote, .rook)
  else if c = 'g' then some (.gote, .gold)
  else none

def parseHandPiece (b : Bytes) : PRes (Bytes × (Side × HandPieceKind)) :=
  match b.buf with
  | [] => .err (.invalidInput b.off "hand piece expected")
  | c :: rest =>
    match handPieceOfChar c with
    | some sk => .ok (⟨rest, b.off + 1⟩, sk)
    | none => .err (.invalidInput b.off "hand piece expected")

def HandsElem.parse (b : Bytes) : PRes (Bytes × HandsElem) :=
  let bc : Bytes × Nat :=
    match parseHandCount b with
    | .ok r => r
    | _ => (b, 1)
  match parseHandPiece bc.1 with
  | .panic => .panic
  | .err e => .err e
  | .ok (remain, (s, k)) => .ok (remain, ⟨s, k, bc.2⟩)

/-- Apply one parsed hand element by saturating addition. -/
def Hands.applyElem (h : Hands) (e : HandsElem) : Hands :=
  h.setc e.side e.kind (satAdd (h.getc e.side e.kind) e.count)

def handsLoop : Nat → Bytes → Hands → PRes (Bytes × Hands)
  | 0, _, _ => .panic
  | fuel + 1, b, hands =>
    if b.buf.isEmpty then .ok (b, hands)
    else
      match HandsElem.parse b with
      | .panic => .panic
      | .err e => .err e
      | .ok (b2, elem) => handsLoop fuel b2 (hands.applyElem elem)

def Hands.parse (b : Bytes) : PRes (Bytes × Hands) :=
  if b.buf.isEmpty then .err (.invalidInput b.off "`Hands` expected")
  else if b.buf = ['-'] then .ok (b.rangeFrom b.len, Hands.empty)
  else handsLoop (b.len + 1) b Hands.empty

/-- Character emitted for a hand piece of a given side. -/
def handsChar (s : Side) (k : HandPieceKind) : Char :=
  match s with
  | .sente => handPieceChar k
  | .gote =>
    match k with
    | .pawn => 'p' | .lance => 'l' | .knight => 'n' | .silver => 's'
    | .bishop => 'b' | .rook => 'r' | .gold => 'g'

/-- Fixed kind order used when formatting hands. -/
def handsKindOrder : List HandPieceKind :=
  [.rook, .bishop, .gold, .silver, .knight, .lance, .pawn]

def fmtHandsEntry (h : Hands) (s : Side) (k : HandPieceKind) : List Char :=
  let n := h.getc s k
  if n = 0 then []
  else (if n > 1 then natDecimal n else []) ++ [handsChar s k]

def fmtHands (h : Hands) : List Char :=
  if h = Hands.empty then ['-']
  else
    ([Side.sente, Side.gote].flatMap fun s =>
      handsKindOrder.flatMap fun k => fmtHandsEntry h s k)

/-- One row-field element: a blank-run digit or a piece. -/
inductive BoardRowElem where
  | blanks (n : Nat)
  | piece (pc : Piece)
deriving DecidableEq

def BoardRowElem.parsePieceCase (b : Bytes) : PRes (Bytes × BoardRowElem) :=
  match Piece.parse b with
  | .panic => .panic
  | .err e => .err e
  | .ok (remain, pc) => .ok (remain, .piece pc)

def BoardRowElem.parse (b : Bytes) : PRes (Bytes × BoardRowElem) :=
  match b.buf with
  | c :: _ =>
    if '1' ≤ c ∧ c ≤ '9' then .ok (b.rangeFrom 1, .blanks (c.toNat - 48))
    else BoardRowElem.parsePieceCase b
  | [] => BoardRowElem.parsePieceCase b

/-- Row-field parse loop.  A piece element indexes `colAll` at the running
column count before the overflow check, exactly as the code does; an index
past the ninth column is a panic. -/
def boardRowLoop : Nat → Bytes → List (Option Piece) → Nat →
    PRes (Bytes × List (Option Piece))
  | 0, _, _, _ => .panic
  | fuel + 1, b, rowAcc, i =>
    if b.buf.isEmpty then
      if i = 9 then .ok (b, rowAcc)
      else .err (.invalidInput b.off "board row has less than 9 columns")
    else
      match BoardRowElem.parse b with
      | .panic => .panic
      | .err e => .err e
      | .ok (b2, .blanks n) =>
        let i2 := i + n
        if i2 > 9 then .err (.invalidInput b2.off "board row has more than 9 columns")
        else boardRowLoop fuel b2 rowAcc i2
      | .ok (b2, .piece pc) =>
        match colAll.get? i with
        | none => .panic
        | some col =>
          let rowAcc2 := rowAcc.set col.toIndex (some pc)
          let i2 := i + 1
          if i2 > 9 then .err (.invalidInput b2.off "board row has more than 9 columns")
          else boardRowLoop fuel b2 rowAcc2 i2

def BoardRow.parse (b : Bytes) : PRes (Bytes × List (Option Piece)) :=
  if b.buf.isEmpty then .err (.invalidInput b.off "board row expected")
  else boardRowLoop (b.len + 1) b (List.replicate 9 none) 0

/-- Split on '/' with offset tracking (`Bytes::split`): no delimiter gives
one field, a trailing delimiter a trailing empty field. -/
def splitSlashAux : List Char → Nat → List Bytes
  | [], off => [⟨[], off⟩]
  | c :: rest, off =>
    if c = '/' then ⟨[], off⟩ :: splitSlashAux rest (off + 1)
    else
      match splitSlashAux rest (off + 1) with
      | f :: fs => ⟨c :: f.buf, off⟩ :: fs
      | [] => [⟨[c], off⟩]

def splitSlash (b : Bytes) : List Bytes := splitSlashAux b.buf b.off

/-- Read `n` rows from the '/'-separated fields, then require exhaustion. -/
def Board.parseRows (off : Nat) : Nat → List Bytes →
    PRes (List (List (Option Piece)))
  | _ + 1, [] => .err (.invalidInput off "board has less than 9 rows")
  | n + 1, f :: fs =>
    match BoardRow.parse f with
    | .panic => .panic
    | .err e => .err e
    | .ok (_, row) =>
      match Board.parseRows off n fs with
      | .panic => .panic
      | .err e => .err e
      | .ok rows => .ok (row :: rows)
  | 0, [] => .ok []
  | 0, _ :: _ => .err (.invalidInput off "board has more than 9 rows")

def Board.parse (b : Bytes) : PRes (Bytes × List (List (Option Piece))) :=
  match Board.parseRows b.off 9 (splitSlash b) with
  | .panic => .panic
  | .err e => .err e
  | .ok rows => .ok (b.rangeFrom b.len, rows)

/-- Row formatting: coalesce maximal blank runs into one digit, flushed
before each piece and at end of row. -/
def fmtRowGo : List (Option Piece) → Nat → List Char
  | [], run => if run > 0 then natDecimal run else []
  | none :: rest, run => fmtRowGo rest (run + 1)
  | some pc :: rest, run =>
    (if run > 0 then natDecimal run else []) ++ fmtPiece pc ++ fmtRowGo rest 0

def fmtRow (row : List (Option Piece)) : List Char := fmtRowGo row 0

def fmtBoard (rows : List (List (Option Piece))) : List Char :=
  match rows with
  | [] => []
  | r :: rs => fmtRow r ++ rs.flatMap (fun r' => '/' :: fmtRow r')

def Board.empty : List (List (Option Piece)) :=
  List.replicate 9 (List.replicate 9 none)

def Board.startpos : List (List (Option Piece)) :=
  [ [some ⟨.gote, .lance⟩, some ⟨.gote, .knight⟩, some ⟨.gote, .silver⟩,
     some ⟨.gote, .gold⟩, some ⟨.gote, .king⟩, some ⟨.gote, .gold⟩,
     some ⟨.gote, .silver⟩, some ⟨.gote, .knight⟩, some ⟨.gote, .lance⟩],
    [none, some ⟨.gote, .rook⟩, none, none, none, none, none,
     some ⟨.gote, .bishop⟩, none],
    List.replicate 9 (some ⟨.gote, .pawn⟩),
    List.replicate 9 none,
    List.replicate 9 none,
    List.replicate 9 none,
    List.replicate 9 (some ⟨.sente, .pawn⟩),
    [none, some ⟨.sente, .bishop⟩, none, none, none, none, none,
     some ⟨.sente, .rook⟩, none],
    [some ⟨.sente, .lance⟩, some ⟨.sente, .knight⟩, some ⟨.sente, .silver⟩,
     some ⟨.sente, .gold⟩, some ⟨.sente, .king⟩, some ⟨.sente, .gold⟩,
     some ⟨.sente, .silver⟩, some ⟨.sente, .knight⟩, some ⟨.sente, .lance⟩] ]

/-- Board-to-board move. -/
structure MoveWalk where
  src : Square
  dst : Square
  promo : Bool
deriving DecidableEq

/-- Drop from hand. -/
structure MoveDrop where
  hpk : HandPieceKind
  dst : Square
deriving DecidableEq

inductive Move where
  | walk (w : MoveWalk)
  | drop (d : MoveDrop)
deriving DecidableEq

def MoveWalk.parse (b : Bytes) : PRes (Bytes × MoveWalk) :=
  match Square.parse b with
  | .panic => .panic
  | .err e => .err e
  | .ok (b1, src) =>
    match Square.parse b1 with
    | .panic => .panic
    | .err e => .err e
    | .ok (b2, dst) =>
      if b2.get 0 = some '+' then .ok (b2.rangeFrom 1, ⟨src, dst, true⟩)
      else .ok (b2, ⟨src, dst, false⟩)

def MoveDrop.parse (b : Bytes) : PRes (Bytes × MoveDrop) :=
  match HandPieceKind.parse b with
  | .panic => .panic
  | .err e => .err e
  | .ok (b1, hpk) =>
    if b1.get 0 = some '*' then
      match Square.parse (b1.rangeFrom 1) with
      | .panic => .panic
      | .err e => .err e
      | .ok (b2, dst) => .ok (b2, ⟨hpk, dst⟩)
    else .err (.invalidInput b1.off "'*' expected")

/-- Try the walk shape, fall back to the drop shape, and report a single
outer failure when both reject. -/
def Move.parse (b : Bytes) : PRes (Bytes × Move) :=
  match MoveWalk.parse b with
  | .ok (remain, w) => .ok (remain, .walk w)
  | .panic => .panic
  | .err _ =>
    match MoveDrop.parse b with
    | .ok (remain, d) => .ok (remain, .drop d)
    | .panic => .panic
    | .err _ => .err (.invalidInput b.off "`Move` expected")

def fmtMove : Move → List Char
  | .walk w => fmtSquare w.src ++ fmtSquare w.dst ++ (if w.promo then ['+'] else [])
  | .drop d => [handPieceChar d.hpk, '*'] ++ fmtSquare d.dst

/-- Index of the first non-space character. -/
def posNonSpace : List Char → Option Nat
  | [] => none
  | c :: rest => if c = ' ' then (posNonSpace rest).map (· + 1) else some 0

/-- Index of the first space character. -/
def posSpace : List Char → Option Nat
  | [] => none
  | c :: rest => if c = ' ' then some 0 else (posSpace rest).map (· + 1)

/-- Remaining input after the consumed tokens, leading spaces stripped. -/
def tokensRemain (b : Bytes) : Bytes :=
  match posNonSpace b.buf with
  | some i => b.rangeFrom i
  | none => b.rangeFrom b.len

/-- Next whitespace-delimited token together with the successor state. -/
def nextToken (b : Bytes) : Option (Bytes × Bytes) :=
  match posNonSpace b.buf with
  | none => none
  | some start =>
    let bs := b.rangeFrom start
    let stop := (posSpace bs.buf).getD bs.len
    some (bs.rangeTo stop, bs.rangeFrom stop)

/-- Rust `u32::from_str`: an optional leading '+' then decimal digits,
rejecting overflow past `u32::MAX`. -/
def rustParseU32 (cs : List Char) : Option Nat :=
  let ds := if cs.head? = some '+' then cs.tail else cs
  if ds.isEmpty then none
  else if ds.all (fun c => decide ('0' ≤ c ∧ c ≤ '9')) then
    let v := ds.foldl (fun a c => 10 * a + (c.toNat - 48)) 0
    if v < 4294967296 then some v else none
  else none

/-- `Position::parse_ply`: the token must parse as a nonzero u32.  The
UTF-8 validity error of the code cannot arise in the character model. -/
def parsePly (b : Bytes) : PRes Nat :=
  match rustParseU32 b.buf with
  | none => .err (.invalidInput b.off "ply must be NonZeroU32")
  | some 0 => .err (.invalidInput b.off "ply must be NonZeroU32")
  | some (n + 1) => .ok (n + 1)

structure Position where
  sideToMove : Side
  board : List (List (Option Piece))
  hands : Hands
  ply : Nat
deriving DecidableEq

def Position.startpos : Position := ⟨.sente, Board.startpos, Hands.empty, 1⟩

/-- Board, side, hands and ply tokens of a non-startpos position. -/
def Position.parseBSHP (bd toks : Bytes) : PRes (Bytes × Position) :=
  match Board.parse bd with
  | .panic => .panic
  | .err e => .err e
  | .ok (_, board) =>
    match nextToken toks with
    | none => .err (.invalidInput (tokensRemain toks).off "premature end of position")
    | some (sd, toks2) =>
      match Side.parse sd with
      | .panic => .panic
      | .err e => .err e
      | .ok (_, side) =>
        match nextToken toks2 with
        | none => .err (.invalidInput (tokensRemain toks2).off "premature end of position")
        | some (hd, toks3) =>
          match Hands.parse hd with
          | .panic => .panic
          | .err e => .err e
          | .ok (_, hands) =>
            match nextToken toks3 with
            | none => .err (.invalidInput (tokensRemain toks3).off "premature end of position")
            | some (pl, toks4) =>
              match parsePly pl with
              | .panic => .panic
              | .err e => .err e
              | .ok ply => .ok (tokensRemain toks4, ⟨side, board, hands, ply⟩)

/-- Continue after the optional "position" token has been skipped. -/
def Position.parseAfterFirst (first toks : Bytes) : PRes (Bytes × Position) :=
  if first.buf = "startpos".data then .ok (tokensRemain toks, Position.startpos)
  else if first.buf = "sfen".data then
    match nextToken toks with
    | none => .err (.invalidInput (tokensRemain toks).off "premature end of position")
    | some (bd, toks2) => Position.parseBSHP bd toks2
  else Position.parseBSHP first toks

def Position.parse (b : Bytes) : PRes (Bytes × Position) :=
  match nextToken b with
  | none => .err (.invalidInput (tokensRemain b).off "premature end of position")
  | some (first, toks) =>
    if first.buf = "position".data then
      match nextToken toks with
      | none => .err (.invalidInput (tokensRemain toks).off "premature end of position")
      | some (first2, toks2) => Position.parseAfterFirst first2 toks2
    else Position.parseAfterFirst first toks

def fmtPosition (p : Position) : List Char :=
  if p = Position.startpos then "startpos".data
  else
    "sfen ".data ++ fmtBoard p.board ++ [' '] ++ fmtSide p.sideToMove ++ [' ']
      ++ fmtHands p.hands ++ [' '] ++ natDecimal p.ply

/-- Game record: a starting position and a move list. -/
structure Kifu where
  pos : Position
  mvs : List Move
deriving DecidableEq

/-- All remaining whitespace-delimited tokens, with structural fuel;
one token consumes at least one character, so `b.len + 1` is enough. -/
def tokenListGo : Nat → Bytes → List Bytes
  | 0, _ => []
  | fuel + 1, b =>
    match nextToken b with
    | none => []
    | some (t, rest) => t :: tokenListGo fuel rest

def tokenListOf (b : Bytes) : List Bytes := tokenListGo (b.len + 1) b

def parseMovesList : List Bytes → PRes (List Move)
  | [] => .ok []
  | t :: ts =>
    match Move.parse t with
    | .panic => .panic
    | .err e => .err e
    | .ok (_, mv) =>
      match parseMovesList ts with
      | .panic => .panic
      | .err e => .err e
      | .ok mvs => .ok (mv :: mvs)

def Kifu.parse (b : Bytes) : PRes (Bytes × Kifu) :=
  match Position.parse b with
  | .panic => .panic
  | .err e => .err e
  | .ok (bytes, pos) =>
    match nextToken bytes with
    | none => .ok (tokensRemain bytes, ⟨pos, []⟩)
    | some (magic, rest) =>
      if magic.buf = "moves".data then
        match parseMovesList (tokenListOf rest) with
        | .panic => .panic
        | .err e => .err e
        | .ok mvs => .ok (⟨[], bytes.off + bytes.len⟩, ⟨pos, mvs⟩)
      else .err (.invalidInput magic.off "\"moves\" expected")

def fmtKifu (k : Kifu) : List Char :=
  "position ".data ++ fmtPosition k.pos ++
    (if k.mvs.isEmpty then []
     else " moves".data ++ k.mvs.flatMap (fun m => ' ' :: fmtMove m))

def sideFromStr (s : String) : PRes Side :=
  parseComplete Side.parse (Bytes.ofString s)

def colFromStr (s : String) : PRes Col :=
  parseComplete Col.parse (Bytes.ofString s)

def rowFromStr (s : String) : PRes Row :=
  parseComplete Row.parse (Bytes.ofString s)

def squareFromStr (s : String) : PRes Square :=
  parseComplete Square.parse (Bytes.ofString s)

def pieceFromStr (s : String) : PRes Piece :=
  parseComplete Piece.parse (Bytes.ofString s)

def handPieceKindFromStr (s : String) : PRes HandPieceKind :=
  parseComplete HandPieceKind.parse (Bytes.ofString s)

def handsFromStr (s : String) : PRes Hands :=
  parseComplete Hands.parse (Bytes.ofString s)

def boardFromStr (s : String) : PRes (List (List (Option Piece))) :=
  parseComplete Board.parse (Bytes.ofString s)

def moveFromStr (s : String) : PRes Move :=
  parseComplete Move.parse (Bytes.ofString s)

def positionFromStr (s : String) : PRes Position :=
  parseComplete Position.parse (Bytes.ofString s)

def kifuFromStr (s : String) : PRes Kifu :=
  parseComplete Kifu.parse (Bytes.ofString s)

/-- Hands formatting as the specification words it, for comparison with
the formatter embedded from the code: '-' exactly when both hands are
entirely empty, else first-mover entries then second-mover entries, kinds
in the fixed order rook, bishop, gold, silver, knight, lance, pawn, zero
counts skipped, a decimal count prefix exactly when the count exceeds 1,
and the bare letter when the count is exactly 1. -/
def fmtHandsSpec (h : Hands) : List Char :=
  if h.sente = Hand.empty ∧ h.gote = Hand.empty then ['-']
  else
    (handsKindOrder.flatMap fun k =>
      let n := h.getc .sente k
      if n = 0 then [] else if n = 1 then [handsChar .sente k]
      else natDecimal n ++ [handsChar .sente k]) ++
    (handsKindOrder.flatMap fun k =>
      let n := h.getc .gote k
      if n = 0 then [] else if n = 1 then [handsChar .gote k]
      else natDecimal n ++ [handsChar .gote k])

/-- Specification helper: write the pieces of `cells` into `acc` at
successive positions starting at `j`, skipping blanks, mirroring the
row-parse loop's effect on its accumulator. -/
def applyCells : List (Option Piece) → List (Option Piece) → Nat → List (Option Piece)
  | acc, [], _ => acc
  | acc, none :: cs, j => applyCells acc cs (j + 1)
  | acc, some pc :: cs, j => applyCells (acc.set j (some pc)) cs (j + 1)

/-- Specification helper: the '/'-separated fields a formatted board
splits into, with their offsets. -/
def fieldsOf : List (List (Option Piece)) → Nat → List Bytes
  | [], _ => []
  | r :: rs, off => ⟨fmtRow r, off⟩ :: fieldsOf rs (off + (fmtRow r).length + 1)

/-- Abstract hand element used to quantify over hand-element sequences:
a (side, kind) letter with a count between 1 and 99, the flag recording
whether a count of one is spelled with an explicit digit. -/
structure HandsElemSpec where
  side : Side
  kind : HandPieceKind
  count : Nat
  explicitDigits : Bool

/-- Characters of one hand element. -/
def elemChars (e : HandsElemSpec) : List Char :=
  (if e.explicitDigits ∨ e.count > 1 then natDecimal e.count else []) ++
    [handsChar e.side e.kind]

/-- Characters of a hand-element sequence. -/
def elemsChars (L : List HandsElemSpec) : List Char := L.flatMap elemChars

/-- Effect of one abstract hand element on the accumulated hands. -/
def elemStep (h : Hands) (e : HandsElemSpec) : Hands :=
  h.applyElem ⟨e.side, e.kind, e.count⟩

/-- All 14 (side, kind) pairs in the order the formatter visits them. -/
def pairList : List (Side × HandPieceKind) :=
  [Side.sente, Side.gote].flatMap fun s => handsKindOrder.map fun k => (s, k)

/-- The optional canonical entry of one (side, kind) pair. -/
def optEntry (h : Hands) (p : Side × HandPieceKind) : List HandsElemSpec :=
  if h.getc p.1 p.2 = 0 then [] else [⟨p.1, p.2, h.getc p.1 p.2, false⟩]

/-- The canonical hand-element sequence a nonempty hands value formats
to. -/
def canonElems (h : Hands) : List HandsElemSpec :=
  pairList.flatMap (optEntry h)

section Lemmas

lemma sideParse_err (b : Bytes) (e : SfenParseError) (h : Side.parse b = .err e) :
    e = .invalidInput b.off "`Side` ('b' | 'w') expected" := by
  rcases b with ⟨buf, off⟩
  cases buf with
  | nil => injection h with h; exact h.symm
  | cons c rest =>
    simp only [Side.parse] at h
    cases hc : sideOfChar c <;> rw [hc] at h
    · injection h with h; exact h.symm
    · exact (PRes.noConfusion h)

lemma colParse_err (b : Bytes) (e : SfenParseError) (h : Col.parse b = .err e) :
    e = .invalidInput b.off "`Col` ([1-9]) expected" := by
  rcases b with ⟨buf, off⟩
  cases buf with
  | nil => injection h with h; exact h.symm
  | cons c rest =>
    simp only [Col.parse] at h
    cases hc : colOfChar c <;> rw [hc] at h
    · injection h with h; exact h.symm
    · exact (PRes.noConfusion h)

lemma rowParse_err (b : Bytes) (e : SfenParseError) (h : Row.parse b = .err e) :
    e = .invalidInput b.off "`Row` ([a-i]) expected" := by
  rcases b with ⟨buf, off⟩
  cases buf with
  | nil => injection h with h; exact h.symm
  | cons c rest =>
    simp only [Row.parse] at h
    cases hc : rowOfChar c <;> rw [hc] at h
    · injection h with h; exact h.symm
    · exact (PRes.noConfusion h)

lemma handPieceKindParse_err (b : Bytes) (e : SfenParseError)
    (h : HandPieceKind.parse b = .err e) :
    e = .invalidInput b.off "hand piece kind expected" := by
  rcases b with ⟨buf, off⟩
  cases buf with
  | nil => injection h with h; exact h.symm
  | cons c rest =>
    simp only [HandPieceKind.parse] at h
    cases hc : handPieceKindOfChar c <;> rw [hc] at h
    · injection h with h; exact h.symm
    · exact (PRes.noConfusion h)

lemma parseHandPiece_err (b : Bytes) (e : SfenParseError) (h : parseHandPiece b = .err e) :
    e = .invalidInput b.off "hand piece expected" := by
  rcases b with ⟨buf, off⟩
  cases buf with
  | nil => injection h with h; exact h.symm
  | cons c rest =>
    simp only [parseHandPiece] at h
    cases hc : handPieceOfChar c <;> rw [hc] at h
    · injection h with h; exact h.symm
    · exact (PRes.noConfusion h)

lemma pieceParseRaw_err (b : Bytes) (e : SfenParseError) (h : Piece.parseRaw b = .err e) :
    e = .invalidInput b.off "raw piece expected" := by
  rcases b with ⟨buf, off⟩
  cases buf with
  | nil => injection h with h; exact h.symm
  | cons c rest =>
    simp only [Piece.parseRaw] at h
    cases hc : rawPieceOfChar c <;> rw [hc] at h
    · injection h with h; exact h.symm
    · exact (PRes.noConfusion h)

lemma pieceParsePromoted_err (b : Bytes) (e : SfenParseError)
    (h : Piece.parsePromoted b = .err e) :
    e = .invalidInput b.off "promoted piece expected" := by
  rcases b with ⟨buf, off⟩
  cases buf with
  | nil => injection h with h; exact h.symm
  | cons c rest =>
    simp only [Piece.parsePromoted] at h
    cases hc : promotedPieceOfChar c <;> rw [hc] at h
    · injection h with h; exact h.symm
    · exact (PRes.noConfusion h)

lemma pieceParse_err_offset (b : Bytes) (e : SfenParseError) (h : Piece.parse b = .err e) :
    e.offset = b.off + (if b.get 0 = some '+' then 1 else 0) := by
  unfold Piece.parse at h
  split_ifs at h with hplus
  · rw [pieceParsePromoted_err _ _ h, if_pos hplus]
    simp [Bytes.rangeFrom, SfenParseError.offset]
  · rw [pieceParseRaw_err _ _ h, if_neg hplus]
    simp [SfenParseError.offset]

end Lemmas

/-- C7: for every one of the 81 squares, formatting then parsing recovers
the identical square; the formatted string is the column character followed
by the row character, and those characters parse back to the same column
and row, so square parsing agrees with `Square::new` applied to the
separately parsed column and row. -/
theorem c7_square_bijection :
    ∀ (c : Col) (r : Row),
      squareFromStr (String.mk (fmtSquare (Square.new c r))) = .ok (Square.new c r) ∧
      fmtSquare (Square.new c r) = [colChar c, rowChar r] ∧
      colFromStr (String.mk [colChar c]) = .ok c ∧
      rowFromStr (String.mk [rowChar r]) = .ok r := by
  intro c r
  cases c <;> cases r <;> decide

/-- C1: decoding is claimed never to panic, in particular on a board row
field "9P"; the code in fact panics there, indexing the column table at 9
before the overflow check, and the panic reaches every decoder built on
the board grammar. -/
theorem c1_board_row_panic :
    boardFromStr "9P/9/9/9/9/9/9/9/9" = .panic ∧
    positionFromStr "9P/9/9/9/9/9/9/9/9 b - 1" = .panic ∧
    kifuFromStr "9P/9/9/9/9/9/9/9/9 b - 1" = .panic := by
  refine ⟨by decide, by decide, by decide⟩

/-- C3 counterexample: a board with ten rows is rejected at the offset of
the whole board field (offset 0), not at the offset right after the ninth
row (offset 17) as the claim states. -/
theorem c3_counterexample :
    boardFromStr "9/9/9/9/9/9/9/9/9/9" =
      .err (.invalidInput 0 "board has more than 9 rows") ∧
    boardFromStr "9/9/9/9/9/9/9/9/9/9" ≠
      .err (.invalidInput 17 "board has more than 9 rows") := by
  refine ⟨by decide, by decide⟩

lemma parseRows_count_err (n : Nat) (fs : List Bytes) (off : Nat)
    (hok : ∀ f ∈ fs.take n, ∃ r, BoardRow.parse f = .ok r) :
    (fs.length < n →
      Board.parseRows off n fs = .err (.invalidInput off "board has less than 9 rows")) ∧
    (fs.length > n →
      Board.parseRows off n fs = .err (.invalidInput off "board has more than 9 rows")) := by
  induction n generalizing fs with
  | zero =>
    refine ⟨fun h => absurd h (by omega), fun h => ?_⟩
    cases fs with
    | nil => simp at h
    | cons f fs' => rfl
  | succ n ih =>
    cases fs with
    | nil =>
      exact ⟨fun _ => rfl, fun h => absurd h (by simp)⟩
    | cons f fs' =>
      obtain ⟨r, hr⟩ := hok f (by simp)
      have hok' : ∀ g ∈ fs'.take n, ∃ r, BoardRow.parse g = .ok r := by
        intro g hg
        exact hok g (by simp [List.take_succ_cons]; right; exact hg)
      constructor
      · intro hlt
        have := (ih fs' hok').1 (by simpa using hlt)
        simp [Board.parseRows, hr, this]
      · intro hgt
        have := (ih fs' hok').2 (by simpa using hgt)
        simp [Board.parseRows, hr, this]

/-- C3 amended: when every present row field (among the first nine)
parses, a board whose '/'-separated field count is below nine fails with
"board has less than 9 rows" and one whose count exceeds nine fails with
"board has more than 9 rows", in both cases at the offset of the whole
board field. -/
theorem c3_row_count_offsets (b : Bytes)
    (hok : ∀ f ∈ (splitSlash b).take 9, ∃ r, BoardRow.parse f = .ok r) :
    ((splitSlash b).length < 9 →
      Board.parse b = .err (.invalidInput b.off "board has less than 9 rows")) ∧
    ((splitSlash b).length > 9 →
      Board.parse b = .err (.invalidInput b.off "board has more than 9 rows")) := by
  have h := parseRows_count_err 9 (splitSlash b) b.off hok
  exact ⟨fun hlt => by simp [Board.parse, h.1 hlt],
         fun hgt => by simp [Board.parse, h.2 hgt]⟩

/-- Witness for C3: the amended statement applied to a two-row and a
ten-row board. -/
theorem c3_row_count_offsets_witness :
    Board.parse (Bytes.ofString "9/9") =
      .err (.invalidInput 0 "board has less than 9 rows") ∧
    Board.parse (Bytes.ofString "9/9/9/9/9/9/9/9/9/9") =
      .err (.invalidInput 0 "board has more than 9 rows") := by
  have h9 : ∀ off, BoardRow.parse ⟨['9'], off⟩ =
      .ok (⟨[], off + 1⟩, List.replicate 9 none) := fun off => rfl
  constructor
  · exact (c3_row_count_offsets (Bytes.ofString "9/9")
      (by intro f hf; fin_cases hf <;> exact ⟨_, h9 _⟩)).1 (by decide)
  · exact (c3_row_count_offsets (Bytes.ofString "9/9/9/9/9/9/9/9/9/9")
      (by intro f hf; fin_cases hf <;> exact ⟨_, h9 _⟩)).2 (by decide)

/-- C9: a rejecting parser reports the offset where the expected element
should have started: rejecting `Hands` input "RB2G?" points at offset 4
(the '?'), and each leaf parser's error carries its own input offset; for
a piece beginning with '+', the expected promoted-piece letter starts one
byte later, and the error points there. -/
theorem c9_reject_offsets :
    handsFromStr "RB2G?" = .err (.invalidInput 4 "hand piece expected") ∧
    pieceFromStr "+K" = .err (.invalidInput 1 "promoted piece expected") ∧
    (∀ b e, Side.parse b = .err e → e = .invalidInput b.off "`Side` ('b' | 'w') expected") ∧
    (∀ b e, Col.parse b = .err e → e = .invalidInput b.off "`Col` ([1-9]) expected") ∧
    (∀ b e, Row.parse b = .err e → e = .invalidInput b.off "`Row` ([a-i]) expected") ∧
    (∀ b e, HandPieceKind.parse b = .err e →
      e = .invalidInput b.off "hand piece kind expected") ∧
    (∀ b e, parseHandPiece b = .err e → e = .invalidInput b.off "hand piece expected") ∧
    (∀ b e, Piece.parse b = .err e →
      e.offset = b.off + (if b.get 0 = some '+' then 1 else 0)) :=
  ⟨by decide, by decide, sideParse_err, colParse_err, rowParse_err,
   handPieceKindParse_err, parseHandPiece_err, pieceParse_err_offset⟩

/-- Witness for C9: the offset rules applied to concrete rejected inputs. -/
theorem c9_reject_offsets_witness :
    (SfenParseError.invalidInput 3 "`Side` ('b' | 'w') expected" =
      .invalidInput (Bytes.off ⟨['x'], 3⟩) "`Side` ('b' | 'w') expected") ∧
    (SfenParseError.offset (.invalidInput 8 "promoted piece expected") =
      Bytes.off ⟨['+', 'K'], 7⟩ +
        (if Bytes.get ⟨['+', 'K'], 7⟩ 0 = some '+' then 1 else 0)) :=
  ⟨c9_reject_offsets.2.2.1 ⟨['x'], 3⟩ _ (by decide),
   c9_reject_offsets.2.2.2.2.2.2.2 ⟨['+', 'K'], 7⟩ _ (by decide)⟩

/-- C10: the ply token tolerates a leading '+' sign: on an all-digit
token the sign is stripped and the value is unchanged, so "+5" decodes
to the same position as "5", while formatting never emits the sign. -/
theorem c10_ply_plus_sign :
    (∀ (off : Nat) (ds : List Char), ds ≠ [] → (∀ c ∈ ds, '0' ≤ c ∧ c ≤ '9') →
      parsePly ⟨'+' :: ds, off⟩ = parsePly ⟨ds, off⟩) ∧
    positionFromStr "sfen 9/9/9/9/9/9/9/9/9 b - +5" =
      .ok ⟨.sente, Board.empty, Hands.empty, 5⟩ ∧
    positionFromStr "sfen 9/9/9/9/9/9/9/9/9 b - 5" =
      .ok ⟨.sente, Board.empty, Hands.empty, 5⟩ ∧
    fmtPosition ⟨.sente, Board.empty, Hands.empty, 5⟩ =
      "sfen 9/9/9/9/9/9/9/9/9 b - 5".data := by
  refine ⟨?_, by decide, by decide, by decide⟩
  intro off ds hne hdig
  cases ds with
  | nil => exact absurd rfl hne
  | cons d ds' =>
    have hd : d ≠ '+' := by
      intro hEq
      have := hdig d (by simp)
      rw [hEq] at this
      exact absurd this (by decide)
    simp [parsePly, rustParseU32, hd]

/-- Witness for C10: the sign rule applied to the token "+5". -/
theorem c10_ply_plus_sign_witness :
    parsePly ⟨['+', '5'], 22⟩ = parsePly ⟨['5'], 22⟩ :=
  c10_ply_plus_sign.1 22 ['5'] (by decide) (by decide)

/-- C4 counterexample: for the token "7g7fZZ" neither move shape consumes
the whole token, yet the standalone decode reports `Extra` at offset 4
rather than InvalidInput "Move expected" at offset 0, and a game record
accepts the token, silently discarding the trailing bytes, instead of
failing. -/
theorem c4_counterexample :
    moveFromStr "7g7fZZ" = .err (.extra 4) ∧
    moveFromStr "7g7fZZ" ≠ .err (.invalidInput 0 "`Move` expected") ∧
    kifuFromStr "position startpos moves 7g7fZZ" =
      .ok ⟨Position.startpos, [.walk ⟨⟨.col7, .row7⟩, ⟨.col7, .row6⟩, false⟩]⟩ := by
  refine ⟨by decide, by decide, by decide⟩

/-- C4 amended: when neither move shape matches even a prefix of the
token, the parse fails with InvalidInput "Move expected" at the token's
start offset, and inside a game record's move list such a token fails the
whole record with that error; when a shape matches only a proper prefix,
the standalone decode fails with `Extra` at the end of the matched prefix
while a game record accepts the token and ignores its trailing bytes. -/
theorem c4_move_expected :
    (∀ b : Bytes, (∃ e, MoveWalk.parse b = .err e) → (∃ e, MoveDrop.parse b = .err e) →
      Move.parse b = .err (.invalidInput b.off "`Move` expected")) ∧
    (∀ (ts₁ : List Bytes) (t : Bytes) (ts₂ : List Bytes),
      (∀ x ∈ ts₁, ∃ r, Move.parse x = .ok r) →
      Move.parse t = .err (.invalidInput t.off "`Move` expected") →
      parseMovesList (ts₁ ++ t :: ts₂) = .err (.invalidInput t.off "`Move` expected")) ∧
    (∀ (b remain : Bytes) (m : Move), Move.parse b = .ok (remain, m) → remain.buf ≠ [] →
      parseComplete Move.parse b = .err (.extra remain.off)) ∧
    kifuFromStr "startpos moves ZZ" = .err (.invalidInput 15 "`Move` expected") ∧
    kifuFromStr "startpos moves 7g7fZZ" =
      .ok ⟨Position.startpos, [.walk ⟨⟨.col7, .row7⟩, ⟨.col7, .row6⟩, false⟩]⟩ := by
  refine ⟨?_, ?_, ?_, by decide, by decide⟩
  · intro b ⟨e1, h1⟩ ⟨e2, h2⟩
    simp [Move.parse, h1, h2]
  · intro ts₁ t ts₂ hok ht
    induction ts₁ with
    | nil => simp [parseMovesList, ht]
    | cons x ts₁' ih =>
      obtain ⟨r, hr⟩ := hok x (by simp)
      have := ih (fun y hy => hok y (by simp [hy]))
      simp [parseMovesList, hr, this]
  · intro b remain m h hne
    simp [parseComplete, h, List.isEmpty_iff, hne]

/-- Witness for C4: the amended rules applied to the tokens "ZZ" and
"7g7fZZ". -/
theorem c4_move_expected_witness :
    Move.parse ⟨['Z', 'Z'], 7⟩ = .err (.invalidInput 7 "`Move` expected") ∧
    parseMovesList [⟨['Z'], 3⟩] = .err (.invalidInput 3 "`Move` expected") ∧
    parseComplete Move.parse (Bytes.ofString "7g7fZZ") = .err (.extra 4) := by
  refine ⟨?_, ?_, ?_⟩
  · exact c4_move_expected.1 _
      ⟨.invalidInput 7 "`Col` ([1-9]) expected", by decide⟩
      ⟨.invalidInput 7 "hand piece kind expected", by decide⟩
  · exact c4_move_expected.2.1 [] ⟨['Z'], 3⟩ [] (by simp)
      (c4_move_expected.1 _
        ⟨.invalidInput 3 "`Col` ([1-9]) expected", by decide⟩
        ⟨.invalidInput 3 "hand piece kind expected", by decide⟩)
  · exact c4_move_expected.2.2.1 _ ⟨['Z', 'Z'], 4⟩
      (.walk ⟨⟨.col7, .row7⟩, ⟨.col7, .row6⟩, false⟩) (by decide) (by decide)

section HandsLemmas

lemma handsChar_facts : ∀ (s : Side) (k : HandPieceKind),
    ¬('0' ≤ handsChar s k ∧ handsChar s k ≤ '9') ∧
    ¬('1' ≤ handsChar s k ∧ handsChar s k ≤ '9') ∧
    handsChar s k ≠ '-' ∧ handsChar s k ≠ ' ' ∧ handsChar s k ≠ '/' := by
  intro s k
  cases s <;> cases k <;> decide

lemma handPieceOfChar_handsChar : ∀ (s : Side) (k : HandPieceKind),
    handPieceOfChar (handsChar s k) = some (s, k) := by
  intro s k
  cases s <;> cases k <;> rfl

lemma parseHandPiece_handsChar (s : Side) (k : HandPieceKind) (rest : List Char) (off : Nat) :
    parseHandPiece ⟨handsChar s k :: rest, off⟩ = .ok (⟨rest, off + 1⟩, (s, k)) := by
  simp [parseHandPiece, handPieceOfChar_handsChar]

lemma natDecimal_digits1 : ∀ n < 10, 1 ≤ n →
    natDecimal n = [Char.ofNat (48 + n)] ∧
    ('1' ≤ Char.ofNat (48 + n) ∧ Char.ofNat (48 + n) ≤ '9') ∧
    (Char.ofNat (48 + n)).toNat - 48 = n := by decide

lemma natDecimal_digits2 : ∀ n < 100, 10 ≤ n →
    natDecimal n = [Char.ofNat (48 + n / 10), Char.ofNat (48 + n % 10)] ∧
    ('1' ≤ Char.ofNat (48 + n / 10) ∧ Char.ofNat (48 + n / 10) ≤ '9') ∧
    ('0' ≤ Char.ofNat (48 + n % 10) ∧ Char.ofNat (48 + n % 10) ≤ '9') ∧
    10 * ((Char.ofNat (48 + n / 10)).toNat - 48) + ((Char.ofNat (48 + n % 10)).toNat - 48)
      = n := by decide

lemma natDecimal_all_digits : ∀ n < 100, ∀ c ∈ natDecimal n, '0' ≤ c ∧ c ≤ '9' := by decide

lemma parseHandCount_not_digit (c : Char) (hc : ¬('1' ≤ c ∧ c ≤ '9'))
    (rest : List Char) (off : Nat) :
    parseHandCount ⟨c :: rest, off⟩ = .err (.invalidInput off "hand piece count expected") := by
  simp [parseHandCount, hc]

lemma parseHandCount_one_digit (n : Nat) (h1 : 1 ≤ n) (h9 : n < 10) (c2 : Char)
    (hc2 : ¬('0' ≤ c2 ∧ c2 ≤ '9')) (rest : List Char) (off : Nat) :
    parseHandCount ⟨Char.ofNat (48 + n) :: c2 :: rest, off⟩ =
      .ok (⟨c2 :: rest, off + 1⟩, n) := by
  obtain ⟨-, hdig, hval⟩ := natDecimal_digits1 n h9 h1
  simp [parseHandCount, hdig, hc2, hval]

lemma parseHandCount_one_digit_eos (n : Nat) (h1 : 1 ≤ n) (h9 : n < 10) (off : Nat) :
    parseHandCount ⟨[Char.ofNat (48 + n)], off⟩ = .ok (⟨[], off + 1⟩, n) := by
  obtain ⟨-, hdig, hval⟩ := natDecimal_digits1 n h9 h1
  simp [parseHandCount, hdig, hval]

lemma parseHandCount_two_digits (n : Nat) (h10 : 10 ≤ n) (h100 : n < 100)
    (rest : List Char) (off : Nat) :
    parseHandCount ⟨Char.ofNat (48 + n / 10) :: Char.ofNat (48 + n % 10) :: rest, off⟩ =
      .ok (⟨rest, off + 2⟩, n) := by
  obtain ⟨-, hd1, hd2, hval⟩ := natDecimal_digits2 n h100 h10
  simp [parseHandCount, hd1, hd2, hval]

lemma elemChars_length_pos (e : HandsElemSpec) : 0 < (elemChars e).length := by
  simp [elemChars]

lemma elem_parse_append (e : HandsElemSpec) (h1 : 1 ≤ e.count) (h99 : e.count ≤ 99)
    (rest : List Char) (off : Nat) :
    HandsElem.parse ⟨elemChars e ++ rest, off⟩ =
      .ok (⟨rest, off + (elemChars e).length⟩, ⟨e.side, e.kind, e.count⟩) := by
  rcases e with ⟨s, k, n, ex⟩
  simp only at h1 h99
  by_cases hdig : ex = true ∨ n > 1
  · rcases Nat.lt_or_ge n 10 with hn | hn
    · have hnd := natDecimal_digits1 n hn h1
      have hchar := handsChar_facts s k
      simp only [elemChars, if_pos hdig, hnd.1]
      simp [HandsElem.parse,
        parseHandCount_one_digit n h1 hn _ hchar.1,
        parseHandPiece_handsChar]
    · have hnd := natDecimal_digits2 n (by omega) hn
      simp only [elemChars, if_pos hdig, hnd.1]
      simp [HandsElem.parse,
        parseHandCount_two_digits n hn (by omega),
        parseHandPiece_handsChar]
  · have hn1 : n = 1 := by
      have h2 := (not_or.mp hdig).2
      omega
    have hchar := handsChar_facts s k
    simp only [elemChars, if_neg hdig, List.nil_append]
    subst hn1
    simp [HandsElem.parse, parseHandCount_not_digit _ hchar.2.1,
      parseHandPiece_handsChar]

lemma handsLoop_cons (fuel : Nat) (b : Bytes) (h : Hands) (hne : b.buf ≠ []) :
    handsLoop (fuel + 1) b h =
      match HandsElem.parse b with
      | .panic => .panic
      | .err e => .err e
      | .ok (b2, elem) => handsLoop fuel b2 (h.applyElem elem) := by
  have : b.buf.isEmpty = false := by
    cases hb : b.buf
    · exact absurd hb hne
    · rfl
  simp [handsLoop, this]

lemma handsLoop_elems (L : List HandsElemSpec) :
    ∀ (h₀ : Hands) (off fuel : Nat),
    (∀ e ∈ L, 1 ≤ e.count ∧ e.count ≤ 99) →
    (elemsChars L).length + 1 ≤ fuel →
    handsLoop fuel ⟨elemsChars L, off⟩ h₀ =
      .ok (⟨[], off + (elemsChars L).length⟩, L.foldl elemStep h₀) := by
  induction L with
  | nil =>
    intro h₀ off fuel _ hfuel
    cases fuel with
    | zero => omega
    | succ f => simp [handsLoop, elemsChars]
  | cons e L' ih =>
    intro h₀ off fuel hwf hfuel
    obtain ⟨h1, h99⟩ := hwf e (by simp)
    have hlen : (elemsChars (e :: L')).length =
        (elemChars e).length + (elemsChars L').length := by
      simp [elemsChars]
    cases fuel with
    | zero => omega
    | succ f =>
      have hcons : elemsChars (e :: L') = elemChars e ++ elemsChars L' := by
        simp [elemsChars]
      have hne : (elemChars e ++ elemsChars L' : List Char) ≠ [] := by
        intro hx
        have hpos := elemChars_length_pos e
        have hzero : (elemChars e ++ elemsChars L' : List Char).length = 0 := by
          rw [hx]; rfl
        rw [List.length_append] at hzero
        omega
      rw [hcons, handsLoop_cons f _ _ hne, elem_parse_append e h1 h99]
      have hf' : (elemsChars L').length + 1 ≤ f := by
        have hpos := elemChars_length_pos e
        omega
      show handsLoop f ⟨elemsChars L', off + (elemChars e).length⟩
        (h₀.applyElem ⟨e.side, e.kind, e.count⟩) = _
      rw [ih (h₀.applyElem ⟨e.side, e.kind, e.count⟩) (off + (elemChars e).length) f
        (fun x hx => hwf x (by simp [hx])) hf']
      simp only [List.foldl_cons, List.length_append, elemStep, Nat.add_assoc]

lemma elemsChars_no_dash (L : List HandsElemSpec)
    (hwf : ∀ e ∈ L, 1 ≤ e.count ∧ e.count ≤ 99) :
    ∀ c ∈ elemsChars L, c ≠ '-' := by
  intro c hc
  simp only [elemsChars, List.mem_flatMap] at hc
  obtain ⟨e, he, hce⟩ := hc
  obtain ⟨h1, h99⟩ := hwf e he
  simp only [elemChars, List.mem_append, List.mem_singleton] at hce
  rcases hce with hce | hce
  · split_ifs at hce with hcond
    · have := natDecimal_all_digits e.count (by omega) c hce
      intro hcEq
      rw [hcEq] at this
      exact absurd this (by decide)
    · simp at hce
  · rw [hce]
    exact (handsChar_facts e.side e.kind).2.2.1

lemma hands_parse_elems (L : List HandsElemSpec) (hne : L ≠ [])
    (hwf : ∀ e ∈ L, 1 ≤ e.count ∧ e.count ≤ 99) (off : Nat) :
    Hands.parse ⟨elemsChars L, off⟩ =
      .ok (⟨[], off + (elemsChars L).length⟩, L.foldl elemStep Hands.empty) := by
  have hlen : 0 < (elemsChars L).length := by
    cases L with
    | nil => exact absurd rfl hne
    | cons e L' =>
      have := elemChars_length_pos e
      simp [elemsChars]
      omega
  have hnonnil : elemsChars L ≠ [] := by
    intro hx
    rw [hx] at hlen
    simp at hlen
  have hnempty : (elemsChars L).isEmpty = false := by
    cases hx : elemsChars L
    · exact absurd hx hnonnil
    · rfl
  have hnodash : elemsChars L ≠ ['-'] := by
    intro hx
    have : '-' ∈ elemsChars L := by rw [hx]; simp
    exact elemsChars_no_dash L hwf '-' this rfl
  rw [Hands.parse]
  simp only [hnempty, Bytes.len]
  rw [if_neg (by simp), if_neg hnodash]
  exact handsLoop_elems L Hands.empty off _ hwf (by omega)

lemma foldl_pawn_replicate (n : Nat) : ∀ (a : Nat), a ≤ 255 →
    (List.replicate n (⟨.sente, .pawn, 1, false⟩ : HandsElemSpec)).foldl elemStep
      ⟨⟨a, 0, 0, 0, 0, 0, 0⟩, Hand.empty⟩ =
      ⟨⟨min (a + n) 255, 0, 0, 0, 0, 0, 0⟩, Hand.empty⟩ := by
  induction n with
  | zero =>
    intro a ha
    rw [List.replicate_zero, List.foldl_nil]
    congr 2
    omega
  | succ m ih =>
    intro a ha
    rw [List.replicate_succ, List.foldl_cons]
    have hstep : elemStep ⟨⟨a, 0, 0, 0, 0, 0, 0⟩, Hand.empty⟩ ⟨.sente, .pawn, 1, false⟩ =
        ⟨⟨min (a + 1) 255, 0, 0, 0, 0, 0, 0⟩, Hand.empty⟩ := rfl
    rw [hstep, ih (min (a + 1) 255) (by omega)]
    congr 2
    omega

lemma elemsChars_replicate_pawn (n : Nat) :
    elemsChars (List.replicate n ⟨.sente, .pawn, 1, false⟩) = List.replicate n 'P' := by
  induction n with
  | zero => rfl
  | succ m ih =>
    rw [List.replicate_succ, List.replicate_succ]
    show elemChars ⟨.sente, .pawn, 1, false⟩ ++ elemsChars (List.replicate m _) = _
    rw [ih]
    rfl

end HandsLemmas

/-- C5: hand parsing is order-insensitive and saturating: "S2Pb3p"
decodes to first-mover silver 1 and pawn 2, second-mover bishop 1 and
pawn 3; every sequence of hand elements decodes to the left fold of
saturating additions over the empty hands; and a run of n 'P' letters
yields a first-mover pawn count of exactly min n 255, so 300 of them
saturate at 255. -/
theorem c5_hands_saturating :
    (handsFromStr "S2Pb3p" = .ok ⟨⟨2, 0, 0, 1, 0, 0, 0⟩, ⟨3, 0, 0, 0, 1, 0, 0⟩⟩) ∧
    (∀ (L : List HandsElemSpec) (off : Nat), L ≠ [] →
      (∀ e ∈ L, 1 ≤ e.count ∧ e.count ≤ 99) →
      Hands.parse ⟨elemsChars L, off⟩ =
        .ok (⟨[], off + (elemsChars L).length⟩, L.foldl elemStep Hands.empty)) ∧
    (∀ n : Nat, 1 ≤ n →
      parseComplete Hands.parse ⟨List.replicate n 'P', 0⟩ =
        .ok ⟨⟨min n 255, 0, 0, 0, 0, 0, 0⟩, Hand.empty⟩) := by
  refine ⟨by decide, fun L off hne hwf => hands_parse_elems L hne hwf off, ?_⟩
  intro n hn
  have hL : (List.replicate n (⟨.sente, .pawn, 1, false⟩ : HandsElemSpec)) ≠ [] := by
    intro hx
    have hlen : (List.replicate n (⟨.sente, .pawn, 1, false⟩ : HandsElemSpec)).length = 0 := by
      rw [hx]; rfl
    rw [List.length_replicate] at hlen
    omega
  have hwf : ∀ e ∈ List.replicate n (⟨.sente, .pawn, 1, false⟩ : HandsElemSpec),
      1 ≤ e.count ∧ e.count ≤ 99 := by
    intro e he
    rw [List.eq_of_mem_replicate he]
    exact ⟨by decide, by decide⟩
  have h := hands_parse_elems _ hL hwf 0
  rw [elemsChars_replicate_pawn] at h
  rw [show (Hands.empty : Hands) = ⟨⟨0, 0, 0, 0, 0, 0, 0⟩, Hand.empty⟩ from rfl,
    foldl_pawn_replicate n 0 (by omega)] at h
  simp only [parseComplete, h, List.isEmpty_nil, if_true, Nat.zero_add]

/-- Witness for C5: the fold rule applied to 300 'P' letters, which
saturate the first-mover pawn count at 255. -/
theorem c5_hands_saturating_witness :
    parseComplete Hands.parse ⟨List.replicate 300 'P', 0⟩ =
      .ok ⟨⟨255, 0, 0, 0, 0, 0, 0⟩, Hand.empty⟩ := by
  have h := c5_hands_saturating.2.2 300 (by omega)
  rw [show min 300 255 = 255 from rfl] at h
  exact h

/-- C6: the hands formatter embedded from the code coincides, on every
hands value, with the formatter the specification describes: '-' exactly
when both hands are entirely empty, first-mover before second-mover,
kinds in the order rook, bishop, gold, silver, knight, lance, pawn, zero
counts skipped, a decimal count prefix exactly when the count exceeds 1. -/
theorem c6_hands_fmt_canonical : ∀ h : Hands, fmtHands h = fmtHandsSpec h := by
  intro h
  have hentry : ∀ s k, fmtHandsEntry h s k =
      (if h.getc s k = 0 then []
       else if h.getc s k = 1 then [handsChar s k]
       else natDecimal (h.getc s k) ++ [handsChar s k]) := by
    intro s k
    simp only [fmtHandsEntry]
    rcases hn : h.getc s k with _ | _ | m <;> simp
  have hemp : (h = Hands.empty) ↔ (h.sente = Hand.empty ∧ h.gote = Hand.empty) := by
    rcases h with ⟨hs, hg⟩
    simp [Hands.empty]
  by_cases he : h = Hands.empty
  · rw [fmtHands, fmtHandsSpec, if_pos he, if_pos (hemp.mp he)]
  · rw [fmtHands, fmtHandsSpec, if_neg he, if_neg (fun hx => he (hemp.mpr hx))]
    simp only [List.flatMap_cons, List.flatMap_nil, List.append_nil, hentry]

section TokenLemmas

lemma posNonSpace_cons_ns (c : Char) (l : List Char) (hc : c ≠ ' ') :
    posNonSpace (c :: l) = some 0 := by
  simp [posNonSpace, hc]

lemma posSpace_all_ns (t : List Char) (ht : ∀ c ∈ t, c ≠ ' ') :
    posSpace t = none := by
  induction t with
  | nil => rfl
  | cons c t' ih =>
    have hc := ht c (by simp)
    rw [posSpace, if_neg hc, ih (fun x hx => ht x (by simp [hx]))]
    rfl

lemma posSpace_space_suffix (t : List Char) (r' : List Char) (ht : ∀ c ∈ t, c ≠ ' ') :
    posSpace (t ++ ' ' :: r') = some t.length := by
  induction t with
  | nil => simp [posSpace]
  | cons c t' ih =>
    have hc := ht c (by simp)
    rw [List.cons_append, posSpace, if_neg hc, ih (fun x hx => ht x (by simp [hx]))]
    rfl

lemma posSpace_tok (t rest : List Char) (ht : ∀ c ∈ t, c ≠ ' ')
    (hrest : rest = [] ∨ ∃ r', rest = ' ' :: r') :
    (posSpace (t ++ rest)).getD (t ++ rest).length = t.length := by
  rcases hrest with h | ⟨r', h⟩ <;> subst h
  · rw [List.append_nil, posSpace_all_ns t ht]
    rfl
  · rw [posSpace_space_suffix t r' ht]
    rfl

lemma nextToken_certain (t rest : List Char) (off : Nat) (ht : t ≠ [])
    (hns : ∀ c ∈ t, c ≠ ' ') (hrest : rest = [] ∨ ∃ r', rest = ' ' :: r') :
    nextToken ⟨t ++ rest, off⟩ = some (⟨t, off⟩, ⟨rest, off + t.length⟩) := by
  cases t with
  | nil => exact absurd rfl ht
  | cons c t' =>
    have h0 : posNonSpace ((c :: t') ++ rest) = some 0 := by
      rw [List.cons_append]
      exact posNonSpace_cons_ns c _ (hns c (by simp))
    have hstop : (posSpace ((c :: t') ++ rest)).getD ((c :: t') ++ rest).length
        = (c :: t').length := posSpace_tok (c :: t') rest hns hrest
    unfold nextToken
    rw [h0]
    simp only [Bytes.rangeFrom, Bytes.rangeTo, Bytes.len, List.drop_zero, Nat.add_zero]
    rw [hstop, List.take_left, List.drop_left]

lemma nextToken_space (l : List Char) (off : Nat) :
    nextToken ⟨' ' :: l, off⟩ = nextToken ⟨l, off + 1⟩ := by
  have hmap : posNonSpace (' ' :: l) = (posNonSpace l).map (· + 1) := by
    simp [posNonSpace]
  unfold nextToken
  rw [hmap]
  cases hp : posNonSpace l with
  | none => rfl
  | some i =>
    simp only [Option.map_some']
    have hbs : (Bytes.mk (' ' :: l) off).rangeFrom (i + 1) =
        (Bytes.mk l (off + 1)).rangeFrom i := by
      simp [Bytes.rangeFrom]
      omega
    rw [hbs]

lemma tokensRemain_empty (off : Nat) : tokensRemain ⟨[], off⟩ = ⟨[], off⟩ := by
  simp [tokensRemain, posNonSpace, Bytes.rangeFrom, Bytes.len]

lemma rustParseU32_lt (cs : List Char) (v : Nat) (h : rustParseU32 cs = some v) :
    v < 4294967296 := by
  simp only [rustParseU32] at h
  split_ifs at h <;>
    first
    | exact (Option.noConfusion h)
    | (injection h with h; omega)

lemma position_parse_fixed_board (t : List Char) (hne : t ≠ [])
    (hns : ∀ c ∈ t, c ≠ ' ') :
    Position.parse ⟨"9/9/9/9/9/9/9/9/9".data ++ ' ' :: 'b' :: ' ' :: '-' :: ' ' :: t, 0⟩ =
      match parsePly ⟨t, 22⟩ with
      | .panic => .panic
      | .err e => .err e
      | .ok n => .ok (⟨[], 22 + t.length⟩, ⟨.sente, Board.empty, Hands.empty, n⟩) := by
  have h1 := nextToken_certain "9/9/9/9/9/9/9/9/9".data
    (' ' :: 'b' :: ' ' :: '-' :: ' ' :: t) 0 (by decide) (by decide) (Or.inr ⟨_, rfl⟩)
  rw [show (0 + ("9/9/9/9/9/9/9/9/9".data : List Char).length) = 17 from by decide] at h1
  have hB : Board.parse ⟨"9/9/9/9/9/9/9/9/9".data, 0⟩ = .ok (⟨[], 17⟩, Board.empty) := by
    decide
  have h2 : nextToken ⟨' ' :: 'b' :: ' ' :: '-' :: ' ' :: t, 17⟩ =
      some (⟨['b'], 18⟩, ⟨' ' :: '-' :: ' ' :: t, 19⟩) := by
    rw [nextToken_space]
    have := nextToken_certain ['b'] (' ' :: '-' :: ' ' :: t) 18
      (by decide) (by decide) (Or.inr ⟨_, rfl⟩)
    simpa using this
  have hS : Side.parse ⟨['b'], 18⟩ = .ok (⟨[], 19⟩, .sente) := by decide
  have h3 : nextToken ⟨' ' :: '-' :: ' ' :: t, 19⟩ =
      some (⟨['-'], 20⟩, ⟨' ' :: t, 21⟩) := by
    rw [nextToken_space]
    have := nextToken_certain ['-'] (' ' :: t) 20 (by decide) (by decide) (Or.inr ⟨_, rfl⟩)
    simpa using this
  have hH : Hands.parse ⟨['-'], 20⟩ = .ok (⟨[], 21⟩, Hands.empty) := by decide
  have h4 : nextToken ⟨' ' :: t, 21⟩ = some (⟨t, 22⟩, ⟨[], 22 + t.length⟩) := by
    rw [nextToken_space]
    have := nextToken_certain t [] 22 hne hns (Or.inl rfl)
    simpa using this
  have hq1 : ¬ (("9/9/9/9/9/9/9/9/9".data : List Char) = "position".data) := by decide
  have hq2 : ¬ (("9/9/9/9/9/9/9/9/9".data : List Char) = "startpos".data) := by decide
  have hq3 : ¬ (("9/9/9/9/9/9/9/9/9".data : List Char) = "sfen".data) := by decide
  simp only [Position.parse, Position.parseAfterFirst, Position.parseBSHP,
    h1, hq1, hq2, hq3, if_false, hB, h2, hS, h3, hH, h4]
  cases hp : parsePly ⟨t, 22⟩ <;> simp [tokensRemain_empty]

end TokenLemmas

/-- C8: in a non-startpos position the fourth token must parse as a
nonzero unsigned 32-bit decimal integer: success gives a ply in
[1, 2^32) agreeing with the token's numeral, a token denoting zero or a
non-numeric token is InvalidInput, and, over a fixed board, side and
hands, the decoded Position's ply is exactly the parsed value. -/
theorem c8_ply_token :
    (∀ (b : Bytes) (n : Nat), parsePly b = .ok n →
      1 ≤ n ∧ n < 4294967296 ∧ rustParseU32 b.buf = some n) ∧
    (∀ b : Bytes, rustParseU32 b.buf = some 0 ∨ rustParseU32 b.buf = none →
      parsePly b = .err (.invalidInput b.off "ply must be NonZeroU32")) ∧
    (∀ t : List Char, t ≠ [] → (∀ c ∈ t, c ≠ ' ') →
      positionFromStr (String.mk ("9/9/9/9/9/9/9/9/9 b - ".data ++ t)) =
        match parsePly ⟨t, 22⟩ with
        | .panic => .panic
        | .err e => .err e
        | .ok n => .ok ⟨.sente, Board.empty, Hands.empty, n⟩) := by
  refine ⟨?_, ?_, ?_⟩
  · intro b n h
    unfold parsePly at h
    cases hr : rustParseU32 b.buf with
    | none => rw [hr] at h; exact (PRes.noConfusion h)
    | some v =>
      rw [hr] at h
      cases v with
      | zero => exact (PRes.noConfusion h)
      | succ m =>
        injection h with h
        subst h
        exact ⟨by omega, rustParseU32_lt b.buf _ hr, rfl⟩
  · intro b hor
    rcases hor with h | h <;> simp [parsePly, h]
  · intro t hne hns
    have hmain := position_parse_fixed_board t hne hns
    have heq : ("9/9/9/9/9/9/9/9/9 b - ".data ++ t : List Char) =
        "9/9/9/9/9/9/9/9/9".data ++ ' ' :: 'b' :: ' ' :: '-' :: ' ' :: t := by
      rw [show ("9/9/9/9/9/9/9/9/9 b - ".data : List Char) =
        "9/9/9/9/9/9/9/9/9".data ++ [' ', 'b', ' ', '-', ' '] from by decide,
        List.append_assoc]
      rfl
    show parseComplete Position.parse ⟨"9/9/9/9/9/9/9/9/9 b - ".data ++ t, 0⟩ = _
    rw [heq]
    unfold parseComplete
    rw [hmain]
    cases hp : parsePly ⟨t, 22⟩ <;> simp

/-- Witness for C8: the ply-token rule applied to the tokens "0" and
"76". -/
theorem c8_ply_token_witness :
    positionFromStr (String.mk ("9/9/9/9/9/9/9/9/9 b - ".data ++ "0".data)) =
      .err (.invalidInput 22 "ply must be NonZeroU32") ∧
    positionFromStr (String.mk ("9/9/9/9/9/9/9/9/9 b - ".data ++ "76".data)) =
      .ok ⟨.sente, Board.empty, Hands.empty, 76⟩ := by
  constructor
  · have h := c8_ply_token.2.2 "0".data (by decide) (by decide)
    rw [h]
    decide
  · have h := c8_ply_token.2.2 "76".data (by decide) (by decide)
    rw [h]
    decide

section NatDecimalLemmas

lemma charOfNat_facts : ∀ m < 128, (Char.ofNat m).toNat = m ∧
    (('0' ≤ Char.ofNat m ∧ Char.ofNat m ≤ '9') ↔ (48 ≤ m ∧ m ≤ 57)) ∧
    (Char.ofNat m = '+' ↔ m = 43) ∧ (Char.ofNat m = ' ' ↔ m = 32) ∧
    (Char.ofNat m = '/' ↔ m = 47) ∧ (Char.ofNat m = '-' ↔ m = 45) := by decide

lemma natDecimalGo_spec : ∀ (f n : Nat), n < 10 ^ f → 1 ≤ f →
    (∀ c ∈ natDecimalGo f n, '0' ≤ c ∧ c ≤ '9') ∧
    natDecimalGo f n ≠ [] ∧
    (natDecimalGo f n).foldl (fun a c => 10 * a + (c.toNat - 48)) 0 = n := by
  intro f
  induction f with
  | zero => intro n _ hf; omega
  | succ f ih =>
    intro n hn _
    by_cases h10 : n < 10
    · have hm : 48 + n < 128 := by omega
      obtain ⟨ht, hd, -⟩ := charOfNat_facts (48 + n) hm
      rw [natDecimalGo, if_pos h10]
      refine ⟨?_, by simp, ?_⟩
      · intro c hc
        rw [List.mem_singleton] at hc
        subst hc
        exact hd.mpr (by omega)
      · simp [ht]
    · have hf1 : 1 ≤ f := by
        by_contra hf0
        have : f = 0 := by omega
        subst this
        simp at hn
        omega
      have hdiv : n / 10 < 10 ^ f := by
        rw [pow_succ] at hn
        omega
      obtain ⟨ihc, ihne, ihval⟩ := ih (n / 10) hdiv hf1
      have hm : 48 + n % 10 < 128 := by
        have := Nat.mod_lt n (show 0 < 10 by omega)
        omega
      obtain ⟨ht, hd, -⟩ := charOfNat_facts (48 + n % 10) hm
      rw [natDecimalGo, if_neg h10]
      refine ⟨?_, by simp, ?_⟩
      · intro c hc
        rw [List.mem_append, List.mem_singleton] at hc
        rcases hc with hc | hc
        · exact ihc c hc
        · subst hc
          refine hd.mpr ⟨by omega, ?_⟩
          have := Nat.mod_lt n (show 0 < 10 by omega)
          omega
      · rw [List.foldl_append, ihval, List.foldl_cons, List.foldl_nil, ht]
        have := Nat.mod_lt n (show 0 < 10 by omega)
        omega

lemma natDecimal_spec (n : Nat) :
    (∀ c ∈ natDecimal n, '0' ≤ c ∧ c ≤ '9') ∧
    natDecimal n ≠ [] ∧
    (natDecimal n).foldl (fun a c => 10 * a + (c.toNat - 48)) 0 = n := by
  have hlt : n < 10 ^ (n + 1) := by
    have h1 : n < 2 ^ n := Nat.lt_two_pow n
    have h2 : (2 : Nat) ^ n ≤ 10 ^ n := Nat.pow_le_pow_left (by omega) n
    have h3 : (10 : Nat) ^ n ≤ 10 ^ (n + 1) := Nat.pow_le_pow_right (by omega) (by omega)
    omega
  exact natDecimalGo_spec (n + 1) n hlt (by omega)

lemma digit_not_special (c : Char) (hc : '0' ≤ c ∧ c ≤ '9') :
    c ≠ '+' ∧ c ≠ ' ' ∧ c ≠ '/' ∧ c ≠ '-' := by
  obtain ⟨h1, h2⟩ := hc
  refine ⟨?_, ?_, ?_, ?_⟩ <;> (intro h; subst h) <;> exact absurd h1 (by decide)

lemma rustParseU32_natDecimal (n : Nat) (hB : n < 4294967296) :
    rustParseU32 (natDecimal n) = some n := by
  obtain ⟨hdig, hne, hval⟩ := natDecimal_spec n
  rcases hd : natDecimal n with _ | ⟨c, cs⟩
  · exact absurd hd hne
  · have hcd : '0' ≤ c ∧ c ≤ '9' := hdig c (by rw [hd]; simp)
    have hplus : c ≠ '+' := (digit_not_special c hcd).1
    have hall : ∀ x ∈ c :: cs, '0' ≤ x ∧ x ≤ '9' := by
      rw [← hd]; exact hdig
    rw [hd] at hval
    simp only [rustParseU32]
    rw [if_neg (show ¬((c :: cs).head? = some '+') from by simp [hplus])]
    rw [if_neg (show ¬((c :: cs).isEmpty = true) from by simp)]
    rw [if_pos (show (c :: cs).all (fun x => decide ('0' ≤ x ∧ x ≤ '9')) = true from by
      rw [List.all_eq_true]
      intro x hx
      exact decide_eq_true (hall x hx))]
    rw [hval, if_pos hB]

lemma parsePly_natDecimal (n : Nat) (h1 : 1 ≤ n) (hB : n < 4294967296) (off : Nat) :
    parsePly ⟨natDecimal n, off⟩ = .ok n := by
  unfold parsePly
  rw [show (Bytes.mk (natDecimal n) off).buf = natDecimal n from rfl,
    rustParseU32_natDecimal n hB]
  cases n with
  | zero => omega
  | succ m => rfl

end NatDecimalLemmas

section BoardLemmas

lemma piece_parse_fmt (pc : Piece) (rest : List Char) (off : Nat) :
    Piece.parse ⟨fmtPiece pc ++ rest, off⟩ =
      .ok (⟨rest, off + (fmtPiece pc).length⟩, pc) := by
  rcases pc with ⟨s, k⟩
  cases s <;> cases k <;> rfl

lemma boardRowElem_parse_piece (pc : Piece) (rest : List Char) (off : Nat) :
    BoardRowElem.parse ⟨fmtPiece pc ++ rest, off⟩ =
      .ok (⟨rest, off + (fmtPiece pc).length⟩, .piece pc) := by
  rcases pc with ⟨s, k⟩
  cases s <;> cases k <;> rfl

lemma boardRowElem_parse_blank (n : Nat) (h1 : 1 ≤ n) (h9 : n < 10)
    (rest : List Char) (off : Nat) :
    BoardRowElem.parse ⟨Char.ofNat (48 + n) :: rest, off⟩ =
      .ok (⟨rest, off + 1⟩, .blanks n) := by
  have h := natDecimal_digits1 n h9 h1
  simp [BoardRowElem.parse, h.2.1, h.2.2, Bytes.rangeFrom]

lemma fmtPiece_length_pos (pc : Piece) : 0 < (fmtPiece pc).length := by
  rcases pc with ⟨s, k⟩
  cases s <;> cases k <;> decide

lemma fmtPiece_chars (pc : Piece) : ∀ c ∈ fmtPiece pc, c ≠ '/' ∧ c ≠ ' ' := by
  rcases pc with ⟨s, k⟩
  cases s <;> cases k <;> decide

lemma fmtRowGo_chars (cells : List (Option Piece)) : ∀ (run : Nat),
    run + cells.length ≤ 99 →
    ∀ c ∈ fmtRowGo cells run, c ≠ '/' ∧ c ≠ ' ' := by
  induction cells with
  | nil =>
    intro run hb c hc
    rw [fmtRowGo] at hc
    split_ifs at hc with hr
    · have := natDecimal_spec run
      have hd := this.1 c hc
      exact ⟨(digit_not_special c hd).2.2.1, (digit_not_special c hd).2.1⟩
    · simp at hc
  | cons cell cs ih =>
    intro run hb c hc
    cases cell with
    | none =>
      rw [fmtRowGo] at hc
      exact ih (run + 1) (by simp at hb ⊢; omega) c hc
    | some pc =>
      rw [fmtRowGo] at hc
      rw [List.mem_append, List.mem_append] at hc
      rcases hc with (hc | hc) | hc
      · split_ifs at hc
        · have hd := (natDecimal_spec run).1 c hc
          exact ⟨(digit_not_special c hd).2.2.1, (digit_not_special c hd).2.1⟩
        · simp at hc
      · exact fmtPiece_chars pc c hc
      · exact ih 0 (by simp at hb ⊢; omega) c hc

lemma natDecimal_ne_nil (n : Nat) : natDecimal n ≠ [] := (natDecimal_spec n).2.1

lemma fmtRowGo_ne_nil (cells : List (Option Piece)) :
    ∀ (run : Nat), cells ≠ [] ∨ 0 < run → fmtRowGo cells run ≠ [] := by
  induction cells with
  | nil =>
    intro run h
    rcases h with h | h
    · exact absurd rfl h
    · rw [fmtRowGo, if_pos h]
      exact natDecimal_ne_nil run
  | cons cell cs ih =>
    intro run _
    cases cell with
    | none =>
      rw [fmtRowGo]
      exact ih (run + 1) (Or.inr (by omega))
    | some pc =>
      rw [fmtRowGo]
      intro hx
      rcases List.append_eq_nil.mp hx with ⟨h1, -⟩
      rcases List.append_eq_nil.mp h1 with ⟨-, h3⟩
      have := fmtPiece_length_pos pc
      rw [h3] at this
      simp at this

lemma boardRowLoop_cons (fuel : Nat) (b : Bytes) (acc : List (Option Piece)) (i : Nat)
    (hne : b.buf ≠ []) :
    boardRowLoop (fuel + 1) b acc i =
      match BoardRowElem.parse b with
      | .panic => .panic
      | .err e => .err e
      | .ok (b2, .blanks n) =>
        if i + n > 9 then .err (.invalidInput b2.off "board row has more than 9 columns")
        else boardRowLoop fuel b2 acc (i + n)
      | .ok (b2, .piece pc) =>
        match colAll.get? i with
        | none => .panic
        | some col =>
          if i + 1 > 9 then .err (.invalidInput b2.off "board row has more than 9 columns")
          else boardRowLoop fuel b2 (acc.set col.toIndex (some pc)) (i + 1) := by
  have hb : b.buf.isEmpty = false := by
    cases hx : b.buf
    · exact absurd hx hne
    · rfl
  simp [boardRowLoop, hb]

lemma boardRowLoop_step_blank (fuel : Nat) (b b2 : Bytes) (acc : List (Option Piece))
    (i n : Nat) (hne : b.buf ≠ []) (hp : BoardRowElem.parse b = .ok (b2, .blanks n)) :
    boardRowLoop (fuel + 1) b acc i =
      if i + n > 9 then .err (.invalidInput b2.off "board row has more than 9 columns")
      else boardRowLoop fuel b2 acc (i + n) := by
  rw [boardRowLoop_cons fuel b acc i hne, hp]

lemma boardRowLoop_step_piece (fuel : Nat) (b b2 : Bytes) (acc : List (Option Piece))
    (i : Nat) (pc : Piece) (col : Col) (hne : b.buf ≠ [])
    (hp : BoardRowElem.parse b = .ok (b2, .piece pc))
    (hcol : colAll.get? i = some col) :
    boardRowLoop (fuel + 1) b acc i =
      if i + 1 > 9 then .err (.invalidInput b2.off "board row has more than 9 columns")
      else boardRowLoop fuel b2 (acc.set col.toIndex (some pc)) (i + 1) := by
  rw [boardRowLoop_cons fuel b acc i hne, hp, hcol]

lemma boardRowLoop_empty (fuel : Nat) (off : Nat) (acc : List (Option Piece)) (i : Nat) :
    boardRowLoop (fuel + 1) ⟨[], off⟩ acc i =
      if i = 9 then .ok (⟨[], off⟩, acc)
      else .err (.invalidInput off "board row has less than 9 columns") := by
  simp [boardRowLoop]

lemma colAll_get (i : Nat) (h : i < 9) :
    ∃ col, colAll.get? i = some col ∧ col.toIndex = i := by
  interval_cases i <;> exact ⟨_, rfl, rfl⟩

lemma boardRowLoop_fmt (cells : List (Option Piece)) :
    ∀ (run i : Nat) (acc : List (Option Piece)) (off fuel : Nat),
    i + run + cells.length = 9 →
    (fmtRowGo cells run).length + 1 ≤ fuel →
    boardRowLoop fuel ⟨fmtRowGo cells run, off⟩ acc i =
      .ok (⟨[], off + (fmtRowGo cells run).length⟩, applyCells acc cells (i + run)) := by
  induction cells with
  | nil =>
    intro run i acc off fuel hnine hfuel
    simp only [List.length_nil] at hnine
    by_cases hr : 0 < run
    · have h1 : 1 ≤ run := hr
      have h9 : run < 10 := by omega
      have hnd := natDecimal_digits1 run h9 h1
      rw [fmtRowGo, if_pos hr, hnd.1] at hfuel ⊢
      simp only [List.length_cons, List.length_nil] at hfuel
      cases fuel with
      | zero => omega
      | succ f =>
        rw [boardRowLoop_step_blank f _ ⟨[], off + 1⟩ acc i run (by simp)
          (boardRowElem_parse_blank run h1 h9 [] off)]
        rw [if_neg (by omega)]
        cases f with
        | zero => omega
        | succ f2 =>
          rw [boardRowLoop_empty f2 (off + 1) acc (i + run), if_pos (by omega)]
          rfl
    · have hr0 : run = 0 := by omega
      subst hr0
      rw [fmtRowGo, if_neg (by omega)] at hfuel ⊢
      cases fuel with
      | zero => simp at hfuel
      | succ f =>
        rw [boardRowLoop_empty f off acc i, if_pos (by omega)]
        rfl
  | cons cell cs ih =>
    intro run i acc off fuel hnine hfuel
    simp only [List.length_cons] at hnine
    cases cell with
    | none =>
      rw [fmtRowGo] at hfuel ⊢
      rw [ih (run + 1) i acc off fuel (by omega) hfuel]
      rw [show applyCells acc (none :: cs) (i + run) = applyCells acc cs (i + run + 1)
        from rfl]
      rw [show i + (run + 1) = i + run + 1 from by omega]
    | some pc =>
      have hi : i + run < 9 := by omega
      obtain ⟨col, hcol, hidx⟩ := colAll_get (i + run) hi
      have hppos := fmtPiece_length_pos pc
      have hpne : (fmtPiece pc ++ fmtRowGo cs 0 : List Char) ≠ [] := by
        intro hx
        rcases List.append_eq_nil.mp hx with ⟨hx1, -⟩
        rw [hx1] at hppos
        simp at hppos
      by_cases hr : 0 < run
      · have h1 : 1 ≤ run := hr
        have h9 : run < 10 := by omega
        have hnd := natDecimal_digits1 run h9 h1
        rw [fmtRowGo, if_pos hr, hnd.1] at hfuel ⊢
        rw [show ([Char.ofNat (48 + run)] ++ fmtPiece pc ++ fmtRowGo cs 0 : List Char) =
          Char.ofNat (48 + run) :: (fmtPiece pc ++ fmtRowGo cs 0) from by simp] at hfuel ⊢
        simp only [List.length_cons, List.length_append] at hfuel
        cases fuel with
        | zero => omega
        | succ f =>
          rw [boardRowLoop_step_blank f _ ⟨fmtPiece pc ++ fmtRowGo cs 0, off + 1⟩ acc i run
            (by simp)
            (boardRowElem_parse_blank run h1 h9 (fmtPiece pc ++ fmtRowGo cs 0) off)]
          rw [if_neg (by omega)]
          cases f with
          | zero => omega
          | succ f2 =>
            rw [boardRowLoop_step_piece f2 _
              ⟨fmtRowGo cs 0, off + 1 + (fmtPiece pc).length⟩
              acc (i + run) pc col hpne
              (boardRowElem_parse_piece pc (fmtRowGo cs 0) (off + 1))
              hcol]
            rw [if_neg (by omega), hidx]
            rw [ih 0 (i + run + 1) (acc.set (i + run) (some pc))
              (off + 1 + (fmtPiece pc).length) f2 (by omega) (by omega)]
            rw [show applyCells acc (some pc :: cs) (i + run) =
              applyCells (acc.set (i + run) (some pc)) cs (i + run + 1) from rfl]
            rw [show i + run + 1 + 0 = i + run + 1 from by omega]
            simp only [List.length_cons, List.length_append]
            rw [show off + 1 + (fmtPiece pc).length + (fmtRowGo cs 0).length =
              off + ((fmtPiece pc).length + (fmtRowGo cs 0).length + 1) from by omega]
      · have hr0 : run = 0 := by omega
        subst hr0
        rw [Nat.add_zero] at hi hcol hidx
        rw [fmtRowGo, if_neg (by omega), List.nil_append] at hfuel ⊢
        simp only [List.length_append] at hfuel
        cases fuel with
        | zero => omega
        | succ f =>
          rw [show i + 0 = i from rfl]
          rw [boardRowLoop_step_piece f _ ⟨fmtRowGo cs 0, off + (fmtPiece pc).length⟩
            acc i pc col hpne
            (boardRowElem_parse_piece pc (fmtRowGo cs 0) off)
            hcol]
          rw [if_neg (by omega), hidx]
          rw [ih 0 (i + 1) (acc.set i (some pc))
            (off + (fmtPiece pc).length) f (by omega) (by omega)]
          rw [show applyCells acc (some pc :: cs) i =
            applyCells (acc.set i (some pc)) cs (i + 1) from rfl]
          rw [show i + 1 + 0 = i + 1 from by omega]
          simp only [List.length_append]
          rw [show off + (fmtPiece pc).length + (fmtRowGo cs 0).length =
            off + ((fmtPiece pc).length + (fmtRowGo cs 0).length) from by omega]

lemma set_append_cons {α : Type} (l₁ : List α) (a b : α) (l₂ : List α) :
    (l₁ ++ a :: l₂).set l₁.length b = l₁ ++ b :: l₂ := by
  induction l₁ with
  | nil => rfl
  | cons x xs ih => simp [List.set, ih]

lemma applyCells_id (cells : List (Option Piece)) :
    ∀ (pre post : List (Option Piece)),
    applyCells (pre ++ (List.replicate cells.length none ++ post)) cells pre.length =
      pre ++ (cells ++ post) := by
  induction cells with
  | nil => intro pre post; simp [applyCells]
  | cons cell cs ih =>
    intro pre post
    rw [List.length_cons, List.replicate_succ, List.cons_append]
    cases cell with
    | none =>
      rw [show applyCells (pre ++ none :: (List.replicate cs.length none ++ post))
          (none :: cs) pre.length =
        applyCells (pre ++ none :: (List.replicate cs.length none ++ post))
          cs (pre.length + 1) from rfl]
      have h := ih (pre ++ [none]) post
      simp only [List.append_assoc, List.singleton_append, List.length_append,
        List.length_cons, List.length_nil] at h
      simpa using h
    | some pc =>
      rw [show applyCells (pre ++ none :: (List.replicate cs.length none ++ post))
          (some pc :: cs) pre.length =
        applyCells ((pre ++ none :: (List.replicate cs.length none ++ post)).set
          pre.length (some pc)) cs (pre.length + 1) from rfl]
      rw [set_append_cons]
      have h := ih (pre ++ [some pc]) post
      simp only [List.append_assoc, List.singleton_append, List.length_append,
        List.length_cons, List.length_nil] at h
      simpa using h

lemma applyCells_replicate (row : List (Option Piece)) (h9 : row.length = 9) :
    applyCells (List.replicate 9 none) row 0 = row := by
  have h := applyCells_id row [] []
  rw [h9] at h
  simpa using h

lemma boardRow_parse_fmt (row : List (Option Piece)) (h9 : row.length = 9) (off : Nat) :
    BoardRow.parse ⟨fmtRow row, off⟩ =
      .ok (⟨[], off + (fmtRow row).length⟩, row) := by
  have hne : fmtRow row ≠ [] := by
    rw [fmtRow]
    apply fmtRowGo_ne_nil
    left
    intro hx
    rw [hx] at h9
    simp at h9
  have hb : (Bytes.mk (fmtRow row) off).buf.isEmpty = false := by
    cases hx : fmtRow row
    · exact absurd hx hne
    · rfl
  have hstep : BoardRow.parse ⟨fmtRow row, off⟩ =
      boardRowLoop ((fmtRow row).length + 1) ⟨fmtRow row, off⟩ (List.replicate 9 none) 0 := by
    simp [BoardRow.parse, hb, Bytes.len]
  rw [hstep]
  rw [show fmtRow row = fmtRowGo row 0 from rfl]
  rw [boardRowLoop_fmt row 0 0 (List.replicate 9 none) off ((fmtRowGo row 0).length + 1)
    (by omega) (by omega)]
  rw [show (0 + 0 : Nat) = 0 from rfl, applyCells_replicate row h9]

lemma splitSlashAux_no_slash (t : List Char) : ∀ (off : Nat),
    (∀ c ∈ t, c ≠ '/') → splitSlashAux t off = [⟨t, off⟩] := by
  induction t with
  | nil => intro off _; rfl
  | cons c t' ih =>
    intro off hns
    have hc := hns c (by simp)
    rw [splitSlashAux, if_neg hc, ih (off + 1) (fun x hx => hns x (by simp [hx]))]

lemma splitSlashAux_cons (t : List Char) : ∀ (rest : List Char) (off : Nat),
    (∀ c ∈ t, c ≠ '/') →
    splitSlashAux (t ++ '/' :: rest) off =
      ⟨t, off⟩ :: splitSlashAux rest (off + t.length + 1) := by
  induction t with
  | nil =>
    intro rest off _
    rw [List.nil_append, splitSlashAux, if_pos rfl]
    rfl
  | cons c t' ih =>
    intro rest off hns
    have hc := hns c (by simp)
    rw [List.cons_append, splitSlashAux, if_neg hc,
      ih rest (off + 1) (fun x hx => hns x (by simp [hx]))]
    simp only [List.length_cons]
    rw [show off + 1 + t'.length + 1 = off + (t'.length + 1) + 1 from by omega]

lemma fmtRow_no_slash (row : List (Option Piece)) (h9 : row.length ≤ 9) :
    ∀ c ∈ fmtRow row, c ≠ '/' := by
  intro c hc
  rw [fmtRow] at hc
  exact (fmtRowGo_chars row 0 (by omega) c hc).1

lemma splitSlash_fmtBoard (rows : List (List (Option Piece))) :
    ∀ (off : Nat), rows ≠ [] → (∀ r ∈ rows, r.length = 9) →
    splitSlashAux (fmtBoard rows) off = fieldsOf rows off := by
  induction rows with
  | nil => intro off hne _; exact absurd rfl hne
  | cons r rs ih =>
    intro off _ hwf
    have hr9 : r.length = 9 := hwf r (by simp)
    have hnos := fmtRow_no_slash r (by omega)
    cases rs with
    | nil =>
      rw [show fmtBoard [r] = fmtRow r from by simp [fmtBoard]]
      rw [splitSlashAux_no_slash (fmtRow r) off hnos]
      rfl
    | cons r2 rs' =>
      have hshape : fmtBoard (r :: r2 :: rs') =
          fmtRow r ++ '/' :: fmtBoard (r2 :: rs') := by
        simp [fmtBoard]
      rw [hshape, splitSlashAux_cons (fmtRow r) _ off hnos]
      rw [ih (off + (fmtRow r).length + 1) (by simp)
        (fun x hx => hwf x (by simp [hx]))]
      rfl

lemma parseRows_fields (rows : List (List (Option Piece))) :
    ∀ (off0 off : Nat), (∀ r ∈ rows, r.length = 9) →
    Board.parseRows off0 rows.length (fieldsOf rows off) = .ok rows := by
  induction rows with
  | nil => intro off0 off _; rfl
  | cons r rs ih =>
    intro off0 off hwf
    rw [show fieldsOf (r :: rs) off =
      ⟨fmtRow r, off⟩ :: fieldsOf rs (off + (fmtRow r).length + 1) from rfl]
    rw [List.length_cons]
    rw [show Board.parseRows off0 (rs.length + 1)
        (⟨fmtRow r, off⟩ :: fieldsOf rs (off + (fmtRow r).length + 1)) =
      (match BoardRow.parse ⟨fmtRow r, off⟩ with
       | .panic => .panic
       | .err e => .err e
       | .ok (_, row) =>
         match Board.parseRows off0 rs.length (fieldsOf rs (off + (fmtRow r).length + 1)) with
         | .panic => .panic
         | .err e => .err e
         | .ok rows => .ok (row :: rows)) from rfl]
    rw [boardRow_parse_fmt r (hwf r (by simp)) off,
      ih off0 (off + (fmtRow r).length + 1) (fun x hx => hwf x (by simp [hx]))]

lemma board_parse_fmt (rows : List (List (Option Piece))) (h9 : rows.length = 9)
    (hwf : ∀ r ∈ rows, r.length = 9) (off : Nat) :
    Board.parse ⟨fmtBoard rows, off⟩ =
      .ok (⟨[], off + (fmtBoard rows).length⟩, rows) := by
  have hsplit : splitSlash ⟨fmtBoard rows, off⟩ = fieldsOf rows off :=
    splitSlash_fmtBoard rows off (by intro hx; rw [hx] at h9; simp at h9) hwf
  rw [Board.parse, hsplit]
  rw [show (Bytes.mk (fmtBoard rows) off).off = off from rfl]
  rw [← h9, parseRows_fields rows off off hwf]
  rw [show (Bytes.mk (fmtBoard rows) off).rangeFrom (Bytes.mk (fmtBoard rows) off).len =
    ⟨[], off + (fmtBoard rows).length⟩ from by
      simp [Bytes.rangeFrom, Bytes.len]]

end BoardLemmas

section HandsCanonLemmas

lemma hand_ext (a b : Hand) (h : ∀ k, a.getc k = b.getc k) : a = b := by
  rcases a with ⟨a1, a2, a3, a4, a5, a6, a7⟩
  rcases b with ⟨b1, b2, b3, b4, b5, b6, b7⟩
  have h1 := h .pawn
  have h2 := h .lance
  have h3 := h .knight
  have h4 := h .silver
  have h5 := h .bishop
  have h6 := h .rook
  have h7 := h .gold
  simp only [Hand.getc] at h1 h2 h3 h4 h5 h6 h7
  subst h1 h2 h3 h4 h5 h6 h7
  rfl

lemma hands_ext (a b : Hands) (h : ∀ s k, a.getc s k = b.getc s k) : a = b := by
  rcases a with ⟨as, ag⟩
  rcases b with ⟨bs, bg⟩
  have hs : as = bs := hand_ext as bs (fun k => h .sente k)
  have hg : ag = bg := hand_ext ag bg (fun k => h .gote k)
  rw [hs, hg]

lemma hand_getc_setc (hd : Hand) (k1 k2 : HandPieceKind) (v : Nat) :
    (hd.setc k1 v).getc k2 = if k1 = k2 then v else hd.getc k2 := by
  cases k1 <;> cases k2 <;> simp [Hand.setc, Hand.getc]

lemma hands_getc_setc (h : Hands) (s1 s2 : Side) (k1 k2 : HandPieceKind) (v : Nat) :
    (h.setc s1 k1 v).getc s2 k2 =
      if s1 = s2 ∧ k1 = k2 then v else h.getc s2 k2 := by
  cases s1 <;> cases s2 <;>
    simp [Hands.setc, Hands.getc, hand_getc_setc]

lemma getc_applyElem (h : Hands) (e : HandsElem) (s : Side) (k : HandPieceKind) :
    (h.applyElem e).getc s k =
      if e.side = s ∧ e.kind = k then satAdd (h.getc s k) e.count
      else h.getc s k := by
  by_cases hc : e.side = s ∧ e.kind = k
  · obtain ⟨hs, hk⟩ := hc
    subst hs
    subst hk
    simp [Hands.applyElem, hands_getc_setc]
  · simp only [Hands.applyElem, hands_getc_setc, if_neg hc]

lemma getc_empty (s : Side) (k : HandPieceKind) : Hands.empty.getc s k = 0 := by
  cases s <;> cases k <;> rfl

lemma fold_optEntry_one (h acc : Hands) (p1 : Side) (p2 : HandPieceKind) (s : Side)
    (k : HandPieceKind) :
    (List.foldl elemStep acc (optEntry h (p1, p2))).getc s k =
      if p1 = s ∧ p2 = k ∧ h.getc s k ≠ 0 then satAdd (acc.getc s k) (h.getc s k)
      else acc.getc s k := by
  have hopt : optEntry h (p1, p2) =
      if h.getc p1 p2 = 0 then [] else [⟨p1, p2, h.getc p1 p2, false⟩] := rfl
  by_cases hz : h.getc p1 p2 = 0
  · rw [hopt, if_pos hz]
    have hcond : ¬(p1 = s ∧ p2 = k ∧ h.getc s k ≠ 0) := by
      rintro ⟨rfl, rfl, hnz⟩
      exact hnz hz
    rw [List.foldl_nil, if_neg hcond]
  · rw [hopt, if_neg hz, List.foldl_cons, List.foldl_nil]
    have hstep : elemStep acc ⟨p1, p2, h.getc p1 p2, false⟩ =
        acc.applyElem ⟨p1, p2, h.getc p1 p2⟩ := rfl
    rw [hstep, getc_applyElem]
    by_cases hp : p1 = s ∧ p2 = k
    · obtain ⟨rfl, rfl⟩ := hp
      rw [if_pos ⟨rfl, rfl⟩, if_pos ⟨rfl, rfl, hz⟩]
    · have h2 : ¬((⟨p1, p2, h.getc p1 p2⟩ : HandsElem).side = s ∧
          (⟨p1, p2, h.getc p1 p2⟩ : HandsElem).kind = k) := hp
      rw [if_neg h2, if_neg (fun hx => hp ⟨hx.1, hx.2.1⟩)]

lemma fold_canonElems_getc (ps : List (Side × HandPieceKind)) :
    ∀ (h acc : Hands) (s : Side) (k : HandPieceKind), ps.Nodup →
    (List.foldl elemStep acc (ps.flatMap (optEntry h))).getc s k =
      if (s, k) ∈ ps ∧ h.getc s k ≠ 0 then satAdd (acc.getc s k) (h.getc s k)
      else acc.getc s k := by
  induction ps with
  | nil =>
    intro h acc s k _
    simp
  | cons p ps' ih =>
    intro h acc s k hnd
    rcases p with ⟨p1, p2⟩
    have hnd' : ps'.Nodup := (List.nodup_cons.mp hnd).2
    have hpnot : ((p1, p2) : Side × HandPieceKind) ∉ ps' := (List.nodup_cons.mp hnd).1
    rw [List.flatMap_cons, List.foldl_append, ih h _ s k hnd', fold_optEntry_one]
    by_cases hzero : h.getc s k = 0
    · simp [hzero]
    · by_cases hp : p1 = s ∧ p2 = k
      · obtain ⟨hp1, hp2⟩ := hp
        have hXpos : p1 = s ∧ p2 = k ∧ h.getc s k ≠ 0 := ⟨hp1, hp2, hzero⟩
        have hmnot : ¬(((s, k) : Side × HandPieceKind) ∈ ps' ∧ h.getc s k ≠ 0) := by
          rintro ⟨hx, -⟩
          apply hpnot
          rw [hp1, hp2]
          exact hx
        have hmcons : ((s, k) : Side × HandPieceKind) ∈ (p1, p2) :: ps' ∧
            h.getc s k ≠ 0 := by
          refine ⟨?_, hzero⟩
          rw [hp1, hp2]
          exact List.mem_cons_self _ _
        rw [if_pos hXpos, if_neg hmnot, if_pos hmcons]
      · have hXneg : ¬(p1 = s ∧ p2 = k ∧ h.getc s k ≠ 0) :=
          fun hx => hp ⟨hx.1, hx.2.1⟩
        rw [if_neg hXneg]
        by_cases hmem : ((s, k) : Side × HandPieceKind) ∈ ps'
        · have hm1 : ((s, k) : Side × HandPieceKind) ∈ ps' ∧ h.getc s k ≠ 0 :=
            ⟨hmem, hzero⟩
          have hm2 : ((s, k) : Side × HandPieceKind) ∈ (p1, p2) :: ps' ∧
              h.getc s k ≠ 0 := ⟨List.mem_cons_of_mem _ hmem, hzero⟩
          rw [if_pos hm1, if_pos hm2]
        · have hnc : ¬(((s, k) : Side × HandPieceKind) ∈ (p1, p2) :: ps' ∧
              h.getc s k ≠ 0) := by
            rintro ⟨hx, -⟩
            rcases List.mem_cons.mp hx with hx1 | hx2
            · injection hx1 with e1 e2
              exact hp ⟨e1.symm, e2.symm⟩
            · exact hmem hx2
          have hm3 : ¬(((s, k) : Side × HandPieceKind) ∈ ps' ∧ h.getc s k ≠ 0) :=
            fun hx => hmem hx.1
          rw [if_neg hm3, if_neg hnc]

lemma pairList_nodup : pairList.Nodup := by decide

lemma pairList_mem (s : Side) (k : HandPieceKind) : (s, k) ∈ pairList := by
  cases s <;> cases k <;> decide

lemma canon_fold (h : Hands) (hwf : ∀ s k, h.getc s k ≤ 255) :
    (canonElems h).foldl elemStep Hands.empty = h := by
  apply hands_ext
  intro s k
  rw [canonElems, fold_canonElems_getc pairList h Hands.empty s k pairList_nodup]
  by_cases hz : h.getc s k = 0
  · rw [if_neg (fun hx => hx.2 hz), getc_empty, hz]
  · rw [if_pos ⟨pairList_mem s k, hz⟩, getc_empty]
    have hb := hwf s k
    show min (0 + h.getc s k) 255 = h.getc s k
    omega

lemma canonElems_wf (h : Hands) (hwf : ∀ s k, h.getc s k ≤ 99) :
    ∀ e ∈ canonElems h, 1 ≤ e.count ∧ e.count ≤ 99 := by
  intro e he
  rw [canonElems] at he
  rcases List.mem_flatMap.mp he with ⟨p, _, hpe⟩
  rcases p with ⟨p1, p2⟩
  have hopt : optEntry h (p1, p2) =
      if h.getc p1 p2 = 0 then [] else [⟨p1, p2, h.getc p1 p2, false⟩] := rfl
  rw [hopt] at hpe
  by_cases hz : h.getc p1 p2 = 0
  · rw [if_pos hz] at hpe
    exact absurd hpe (by simp)
  · rw [if_neg hz] at hpe
    have he2 : e = ⟨p1, p2, h.getc p1 p2, false⟩ := List.mem_singleton.mp hpe
    rw [he2]
    refine ⟨?_, ?_⟩
    · show 1 ≤ h.getc p1 p2
      omega
    · show h.getc p1 p2 ≤ 99
      exact hwf p1 p2

lemma canonElems_ne_nil (h : Hands) (hne : h ≠ Hands.empty) : canonElems h ≠ [] := by
  have hex : ∃ s k, h.getc s k ≠ 0 := by
    by_contra hall
    push_neg at hall
    exact hne (hands_ext h Hands.empty (fun s k => by rw [hall s k, getc_empty]))
  obtain ⟨s, k, hz⟩ := hex
  have hopt : optEntry h (s, k) =
      if h.getc s k = 0 then [] else [⟨s, k, h.getc s k, false⟩] := rfl
  have hmem : (⟨s, k, h.getc s k, false⟩ : HandsElemSpec) ∈ canonElems h := by
    rw [canonElems]
    exact List.mem_flatMap.mpr ⟨(s, k), pairList_mem s k,
      by rw [hopt, if_neg hz]; simp⟩
  exact List.ne_nil_of_mem hmem

lemma optEntry_chars (h : Hands) (s : Side) (k : HandPieceKind) :
    (optEntry h (s, k)).flatMap elemChars = fmtHandsEntry h s k := by
  have hopt : optEntry h (s, k) =
      if h.getc s k = 0 then [] else [⟨s, k, h.getc s k, false⟩] := rfl
  rw [hopt]
  by_cases hz : h.getc s k = 0
  · rw [if_pos hz]
    simp [fmtHandsEntry, hz]
  · rw [if_neg hz]
    simp only [List.flatMap_cons, List.flatMap_nil, List.append_nil, elemChars,
      fmtHandsEntry]
    rw [if_neg hz]
    simp

lemma fmtHands_eq_elemsChars (h : Hands) (hne : h ≠ Hands.empty) :
    fmtHands h = elemsChars (canonElems h) := by
  rw [fmtHands, if_neg hne, elemsChars, canonElems, pairList]
  simp only [handsKindOrder, List.flatMap_cons, List.flatMap_nil, List.map_cons,
    List.map_nil, List.flatMap_append, List.append_nil, optEntry_chars,
    List.append_assoc]

lemma hands_fmt_parse (h : Hands) (hwf : ∀ s k, h.getc s k ≤ 99) (off : Nat) :
    Hands.parse ⟨fmtHands h, off⟩ =
      .ok (⟨[], off + (fmtHands h).length⟩, h) := by
  by_cases he : h = Hands.empty
  · subst he
    rw [show fmtHands Hands.empty = ['-'] from rfl]
    rfl
  · rw [fmtHands_eq_elemsChars h he,
      hands_parse_elems (canonElems h) (canonElems_ne_nil h he) (canonElems_wf h hwf) off,
      canon_fold h (fun s k => le_trans (hwf s k) (by omega))]

end HandsCanonLemmas

section PositionLemmas

lemma natDecimal_ns (n : Nat) : ∀ c ∈ natDecimal n, c ≠ ' ' := by
  intro c hc
  exact (digit_not_special c ((natDecimal_spec n).1 c hc)).2.1

lemma fmtSide_ne (s : Side) : fmtSide s ≠ [] := by
  cases s <;> decide

lemma fmtSide_ns (s : Side) : ∀ c ∈ fmtSide s, c ≠ ' ' := by
  cases s <;> decide

lemma side_parse_fmt (s : Side) (off : Nat) :
    Side.parse ⟨fmtSide s, off⟩ = .ok (⟨[], off + 1⟩, s) := by
  cases s <;> rfl

lemma fmtBoard_ns (rows : List (List (Option Piece))) (hwf : ∀ r ∈ rows, r.length = 9) :
    ∀ c ∈ fmtBoard rows, c ≠ ' ' := by
  intro c hc
  cases rows with
  | nil => simp [fmtBoard] at hc
  | cons r rs =>
    rw [fmtBoard] at hc
    rcases List.mem_append.mp hc with h1 | h2
    · exact (fmtRowGo_chars r 0 (by rw [hwf r (by simp)]; omega) c h1).2
    · rcases List.mem_flatMap.mp h2 with ⟨r', hr', hcr⟩
      rcases List.mem_cons.mp hcr with rfl | h3
      · decide
      · exact (fmtRowGo_chars r' 0
          (by rw [hwf r' (by simp [hr'])]; omega) c h3).2

lemma fmtBoard_ne (rows : List (List (Option Piece))) (hne : rows ≠ [])
    (hwf : ∀ r ∈ rows, r.length = 9) : fmtBoard rows ≠ [] := by
  cases rows with
  | nil => exact absurd rfl hne
  | cons r rs =>
    rw [fmtBoard]
    intro hx
    rcases List.append_eq_nil.mp hx with ⟨h1, -⟩
    have hrne : r ≠ [] := by
      intro hz
      have h9 := hwf r (by simp)
      rw [hz] at h9
      simp at h9
    exact fmtRowGo_ne_nil r 0 (Or.inl hrne) h1

lemma fmtHands_ns (h : Hands) : ∀ c ∈ fmtHands h, c ≠ ' ' := by
  intro c hc
  by_cases he : h = Hands.empty
  · subst he
    rw [show fmtHands Hands.empty = ['-'] from rfl] at hc
    rw [List.mem_singleton] at hc
    subst hc
    decide
  · rw [fmtHands_eq_elemsChars h he, elemsChars] at hc
    rcases List.mem_flatMap.mp hc with ⟨e, _, hce⟩
    rw [elemChars] at hce
    rcases List.mem_append.mp hce with h1 | h2
    · split_ifs at h1 with hd
      · exact natDecimal_ns e.count c h1
      · simp at h1
    · rw [List.mem_singleton] at h2
      subst h2
      exact (handsChar_facts e.side e.kind).2.2.2.1

lemma fmtHands_ne (h : Hands) : fmtHands h ≠ [] := by
  by_cases he : h = Hands.empty
  · subst he
    rw [show fmtHands Hands.empty = ['-'] from rfl]
    simp
  · rw [fmtHands_eq_elemsChars h he]
    rcases hL : canonElems h with _ | ⟨e, L⟩
    · exact absurd hL (canonElems_ne_nil h he)
    · intro hx
      rw [elemsChars, List.flatMap_cons] at hx
      rcases List.append_eq_nil.mp hx with ⟨h1, -⟩
      have hp := elemChars_length_pos e
      rw [h1] at hp
      simp at hp

lemma position_parse_fmt (p : Position) (hne : p ≠ Position.startpos)
    (h9 : p.board.length = 9) (hwf : ∀ r ∈ p.board, r.length = 9)
    (hh : ∀ s k, p.hands.getc s k ≤ 99)
    (hply1 : 1 ≤ p.ply) (hplyB : p.ply < 4294967296) :
    Position.parse ⟨fmtPosition p, 0⟩ =
      .ok (⟨[], (fmtPosition p).length⟩, p) := by
  have hBne : fmtBoard p.board ≠ [] :=
    fmtBoard_ne p.board (by intro hx; rw [hx] at h9; simp at h9) hwf
  have hBns : ∀ c ∈ fmtBoard p.board, c ≠ ' ' := fmtBoard_ns p.board hwf
  have hSne : fmtSide p.sideToMove ≠ [] := fmtSide_ne p.sideToMove
  have hSns : ∀ c ∈ fmtSide p.sideToMove, c ≠ ' ' := fmtSide_ns p.sideToMove
  have hHne : fmtHands p.hands ≠ [] := fmtHands_ne p.hands
  have hHns : ∀ c ∈ fmtHands p.hands, c ≠ ' ' := fmtHands_ns p.hands
  have hDne : natDecimal p.ply ≠ [] := natDecimal_ne_nil p.ply
  have hDns : ∀ c ∈ natDecimal p.ply, c ≠ ' ' := natDecimal_ns p.ply
  have hshape : fmtPosition p = "sfen".data ++ ' ' ::
      (fmtBoard p.board ++ ' ' :: (fmtSide p.sideToMove ++ ' ' ::
        (fmtHands p.hands ++ ' ' :: natDecimal p.ply))) := by
    rw [fmtPosition, if_neg hne,
      show ("sfen ".data : List Char) = "sfen".data ++ [' '] from by decide]
    simp [List.append_assoc]
  have h1 := nextToken_certain "sfen".data
    (' ' :: (fmtBoard p.board ++ ' ' :: (fmtSide p.sideToMove ++ ' ' ::
      (fmtHands p.hands ++ ' ' :: natDecimal p.ply)))) 0 (by decide) (by decide)
    (Or.inr ⟨_, rfl⟩)
  rw [show (0 + ("sfen".data : List Char).length) = 4 from by decide] at h1
  have h2 : nextToken ⟨' ' :: (fmtBoard p.board ++ ' ' :: (fmtSide p.sideToMove ++ ' ' ::
      (fmtHands p.hands ++ ' ' :: natDecimal p.ply))), 4⟩ =
      some (⟨fmtBoard p.board, 5⟩,
        ⟨' ' :: (fmtSide p.sideToMove ++ ' ' ::
          (fmtHands p.hands ++ ' ' :: natDecimal p.ply)),
         5 + (fmtBoard p.board).length⟩) := by
    rw [nextToken_space]
    have hc := nextToken_certain (fmtBoard p.board)
      (' ' :: (fmtSide p.sideToMove ++ ' ' ::
        (fmtHands p.hands ++ ' ' :: natDecimal p.ply))) 5 hBne hBns (Or.inr ⟨_, rfl⟩)
    simpa using hc
  have hB := board_parse_fmt p.board h9 hwf 5
  have h3 : nextToken ⟨' ' :: (fmtSide p.sideToMove ++ ' ' ::
      (fmtHands p.hands ++ ' ' :: natDecimal p.ply)), 5 + (fmtBoard p.board).length⟩ =
      some (⟨fmtSide p.sideToMove, 5 + (fmtBoard p.board).length + 1⟩,
        ⟨' ' :: (fmtHands p.hands ++ ' ' :: natDecimal p.ply),
         5 + (fmtBoard p.board).length + 1 + (fmtSide p.sideToMove).length⟩) := by
    rw [nextToken_space]
    exact nextToken_certain (fmtSide p.sideToMove)
      (' ' :: (fmtHands p.hands ++ ' ' :: natDecimal p.ply))
      (5 + (fmtBoard p.board).length + 1) hSne hSns (Or.inr ⟨_, rfl⟩)
  have hS := side_parse_fmt p.sideToMove (5 + (fmtBoard p.board).length + 1)
  have h4 : nextToken ⟨' ' :: (fmtHands p.hands ++ ' ' :: natDecimal p.ply),
      5 + (fmtBoard p.board).length + 1 + (fmtSide p.sideToMove).length⟩ =
      some (⟨fmtHands p.hands,
          5 + (fmtBoard p.board).length + 1 + (fmtSide p.sideToMove).length + 1⟩,
        ⟨' ' :: natDecimal p.ply,
         5 + (fmtBoard p.board).length + 1 + (fmtSide p.sideToMove).length + 1 +
           (fmtHands p.hands).length⟩) := by
    rw [nextToken_space]
    exact nextToken_certain (fmtHands p.hands) (' ' :: natDecimal p.ply)
      (5 + (fmtBoard p.board).length + 1 + (fmtSide p.sideToMove).length + 1)
      hHne hHns (Or.inr ⟨_, rfl⟩)
  have hH := hands_fmt_parse p.hands hh
    (5 + (fmtBoard p.board).length + 1 + (fmtSide p.sideToMove).length + 1)
  have h5 : nextToken ⟨' ' :: natDecimal p.ply,
      5 + (fmtBoard p.board).length + 1 + (fmtSide p.sideToMove).length + 1 +
        (fmtHands p.hands).length⟩ =
      some (⟨natDecimal p.ply,
          5 + (fmtBoard p.board).length + 1 + (fmtSide p.sideToMove).length + 1 +
            (fmtHands p.hands).length + 1⟩,
        ⟨[], 5 + (fmtBoard p.board).length + 1 + (fmtSide p.sideToMove).length + 1 +
            (fmtHands p.hands).length + 1 + (natDecimal p.ply).length⟩) := by
    rw [nextToken_space]
    have hc := nextToken_certain (natDecimal p.ply) []
      (5 + (fmtBoard p.board).length + 1 + (fmtSide p.sideToMove).length + 1 +
        (fmtHands p.hands).length + 1) hDne hDns (Or.inl rfl)
    rw [List.append_nil] at hc
    exact hc
  have hP := parsePly_natDecimal p.ply hply1 hplyB
    (5 + (fmtBoard p.board).length + 1 + (fmtSide p.sideToMove).length + 1 +
      (fmtHands p.hands).length + 1)
  have hq1 : ¬ (("sfen".data : List Char) = "position".data) := by decide
  have hq2 : ¬ (("sfen".data : List Char) = "startpos".data) := by decide
  have hlen : 5 + (fmtBoard p.board).length + 1 + (fmtSide p.sideToMove).length + 1 +
      (fmtHands p.hands).length + 1 + (natDecimal p.ply).length =
      (fmtPosition p).length := by
    rw [hshape]
    simp only [List.length_append, List.length_cons,
      show (("sfen".data : List Char)).length = 4 from by decide]
    omega
  conv_lhs => rw [hshape]
  simp only [Position.parse, Position.parseAfterFirst, Position.parseBSHP,
    h1, hq1, hq2, eq_self_iff_true, if_true, if_false, hB, h2, h3, hS, h4, hH, h5, hP,
    tokensRemain_empty]
  rw [hlen]

lemma parsePly_ok_bounds (b : Bytes) (n : Nat) (h : parsePly b = .ok n) :
    1 ≤ n ∧ n < 4294967296 := by
  unfold parsePly at h
  cases hr : rustParseU32 b.buf with
  | none => rw [hr] at h; exact (PRes.noConfusion h)
  | some v =>
    rw [hr] at h
    cases v with
    | zero => exact (PRes.noConfusion h)
    | succ m =>
      injection h with h
      subst h
      exact ⟨by omega, rustParseU32_lt b.buf _ hr⟩

lemma boardRowLoop_step_panic (fuel : Nat) (b : Bytes) (acc : List (Option Piece))
    (i : Nat) (hne : b.buf ≠ []) (hp : BoardRowElem.parse b = .panic) :
    boardRowLoop (fuel + 1) b acc i = .panic := by
  rw [boardRowLoop_cons fuel b acc i hne, hp]

lemma boardRowLoop_step_err (fuel : Nat) (b : Bytes) (acc : List (Option Piece))
    (i : Nat) (e : SfenParseError) (hne : b.buf ≠ [])
    (hp : BoardRowElem.parse b = .err e) :
    boardRowLoop (fuel + 1) b acc i = .err e := by
  rw [boardRowLoop_cons fuel b acc i hne, hp]

lemma boardRowLoop_step_piece_none (fuel : Nat) (b b2 : Bytes)
    (acc : List (Option Piece)) (i : Nat) (pc : Piece) (hne : b.buf ≠ [])
    (hp : BoardRowElem.parse b = .ok (b2, .piece pc)) (hcol : colAll.get? i = none) :
    boardRowLoop (fuel + 1) b acc i = .panic := by
  rw [boardRowLoop_cons fuel b acc i hne, hp, hcol]

lemma boardRowLoop_len (fuel : Nat) : ∀ (b : Bytes) (acc : List (Option Piece)) (i : Nat)
    (rem : Bytes) (row : List (Option Piece)),
    boardRowLoop fuel b acc i = .ok (rem, row) → row.length = acc.length := by
  induction fuel with
  | zero =>
    intro b acc i rem row h
    exact (PRes.noConfusion h)
  | succ f ih =>
    intro b acc i rem row h
    rcases b with ⟨buf, off⟩
    cases buf with
    | nil =>
      rw [boardRowLoop_empty] at h
      by_cases hi : i = 9
      · rw [if_pos hi] at h
        injection h with h2
        injection h2 with h3 h4
        rw [← h4]
      · rw [if_neg hi] at h
        exact (PRes.noConfusion h)
    | cons c rest =>
      have hne : (Bytes.mk (c :: rest) off).buf ≠ [] := by simp
      cases hBE : BoardRowElem.parse ⟨c :: rest, off⟩ with
      | panic =>
        rw [boardRowLoop_step_panic f _ acc i hne hBE] at h
        exact (PRes.noConfusion h)
      | err e =>
        rw [boardRowLoop_step_err f _ acc i e hne hBE] at h
        exact (PRes.noConfusion h)
      | ok r =>
        rcases r with ⟨b2, elem⟩
        cases elem with
        | blanks n =>
          rw [boardRowLoop_step_blank f _ b2 acc i n hne hBE] at h
          by_cases h9 : i + n > 9
          · rw [if_pos h9] at h
            exact (PRes.noConfusion h)
          · rw [if_neg h9] at h
            exact ih b2 acc (i + n) rem row h
        | piece pc =>
          cases hcol : colAll.get? i with
          | none =>
            rw [boardRowLoop_step_piece_none f _ b2 acc i pc hne hBE hcol] at h
            exact (PRes.noConfusion h)
          | some col =>
            rw [boardRowLoop_step_piece f _ b2 acc i pc col hne hBE hcol] at h
            by_cases h9 : i + 1 > 9
            · rw [if_pos h9] at h
              exact (PRes.noConfusion h)
            · rw [if_neg h9] at h
              have hlen := ih b2 (acc.set col.toIndex (some pc)) (i + 1) rem row h
              rw [hlen, List.length_set]

lemma boardRow_parse_len (b : Bytes) (rem : Bytes) (row : List (Option Piece))
    (h : BoardRow.parse b = .ok (rem, row)) : row.length = 9 := by
  rw [BoardRow.parse] at h
  by_cases he : b.buf.isEmpty = true
  · rw [if_pos he] at h
    exact (PRes.noConfusion h)
  · rw [if_neg he] at h
    have hlen := boardRowLoop_len (b.len + 1) b (List.replicate 9 none) 0 rem row h
    rw [hlen, List.length_replicate]

lemma parseRows_wf (n : Nat) : ∀ (off : Nat) (fs : List Bytes)
    (rows : List (List (Option Piece))),
    Board.parseRows off n fs = .ok rows →
    rows.length = n ∧ ∀ r ∈ rows, r.length = 9 := by
  induction n with
  | zero =>
    intro off fs rows h
    cases fs with
    | nil =>
      rw [show Board.parseRows off 0 [] = .ok [] from rfl] at h
      injection h with h
      subst h
      exact ⟨rfl, by simp⟩
    | cons f fs' =>
      exact (PRes.noConfusion h)
  | succ m ih =>
    intro off fs rows h
    cases fs with
    | nil => exact (PRes.noConfusion h)
    | cons f fs' =>
      rw [show Board.parseRows off (m + 1) (f :: fs') =
        (match BoardRow.parse f with
         | .panic => .panic
         | .err e => .err e
         | .ok (_, row) =>
           match Board.parseRows off m fs' with
           | .panic => .panic
           | .err e => .err e
           | .ok rows => .ok (row :: rows)) from rfl] at h
      cases hBR : BoardRow.parse f with
      | panic => rw [hBR] at h; exact (PRes.noConfusion h)
      | err e => rw [hBR] at h; exact (PRes.noConfusion h)
      | ok r =>
        rcases r with ⟨rem1, row1⟩
        simp only [hBR] at h
        cases hRs : Board.parseRows off m fs' with
        | panic => rw [hRs] at h; exact (PRes.noConfusion h)
        | err e => rw [hRs] at h; exact (PRes.noConfusion h)
        | ok rows' =>
          simp only [hRs] at h
          injection h with h
          subst h
          obtain ⟨hl, hr⟩ := ih off fs' rows' hRs
          refine ⟨by simp [hl], ?_⟩
          intro r hmem
          rcases List.mem_cons.mp hmem with hEq | hm2
          · rw [hEq]
            exact boardRow_parse_len f rem1 row1 hBR
          · exact hr r hm2

lemma board_parse_wf (b rem : Bytes) (rows : List (List (Option Piece)))
    (h : Board.parse b = .ok (rem, rows)) :
    rows.length = 9 ∧ ∀ r ∈ rows, r.length = 9 := by
  rw [Board.parse] at h
  cases hR : Board.parseRows b.off 9 (splitSlash b) with
  | panic => rw [hR] at h; exact (PRes.noConfusion h)
  | err e => rw [hR] at h; exact (PRes.noConfusion h)
  | ok rows' =>
    simp only [hR] at h
    injection h with h
    injection h with h1 h2
    rw [← h2]
    exact parseRows_wf 9 b.off (splitSlash b) rows' hR

lemma parseBSHP_wf (bd toks rem : Bytes) (p : Position)
    (h : Position.parseBSHP bd toks = .ok (rem, p)) :
    p.board.length = 9 ∧ (∀ r ∈ p.board, r.length = 9) ∧
      1 ≤ p.ply ∧ p.ply < 4294967296 := by
  rw [Position.parseBSHP] at h
  cases hB : Board.parse bd with
  | panic => rw [hB] at h; exact (PRes.noConfusion h)
  | err e => rw [hB] at h; exact (PRes.noConfusion h)
  | ok r1 =>
    rcases r1 with ⟨brem, board⟩
    simp only [hB] at h
    cases hT1 : nextToken toks with
    | none => rw [hT1] at h; exact (PRes.noConfusion h)
    | some r2 =>
      rcases r2 with ⟨sd, toks2⟩
      simp only [hT1] at h
      cases hSd : Side.parse sd with
      | panic => rw [hSd] at h; exact (PRes.noConfusion h)
      | err e => rw [hSd] at h; exact (PRes.noConfusion h)
      | ok r3 =>
        rcases r3 with ⟨srem, side⟩
        simp only [hSd] at h
        cases hT2 : nextToken toks2 with
        | none => rw [hT2] at h; exact (PRes.noConfusion h)
        | some r4 =>
          rcases r4 with ⟨hd, toks3⟩
          simp only [hT2] at h
          cases hH : Hands.parse hd with
          | panic => rw [hH] at h; exact (PRes.noConfusion h)
          | err e => rw [hH] at h; exact (PRes.noConfusion h)
          | ok r5 =>
            rcases r5 with ⟨hrem, hands⟩
            simp only [hH] at h
            cases hT3 : nextToken toks3 with
            | none => rw [hT3] at h; exact (PRes.noConfusion h)
            | some r6 =>
              rcases r6 with ⟨pl, toks4⟩
              simp only [hT3] at h
              cases hP : parsePly pl with
              | panic => rw [hP] at h; exact (PRes.noConfusion h)
              | err e => rw [hP] at h; exact (PRes.noConfusion h)
              | ok ply =>
                simp only [hP] at h
                injection h with h
                injection h with hx1 hx2
                subst hx2
                obtain ⟨hb1, hb2⟩ := board_parse_wf bd brem board hB
                obtain ⟨hp1, hp2⟩ := parsePly_ok_bounds pl ply hP
                exact ⟨hb1, hb2, hp1, hp2⟩

lemma parseAfterFirst_wf (first toks rem : Bytes) (p : Position)
    (h : Position.parseAfterFirst first toks = .ok (rem, p)) :
    p = Position.startpos ∨
      (p.board.length = 9 ∧ (∀ r ∈ p.board, r.length = 9) ∧
       1 ≤ p.ply ∧ p.ply < 4294967296) := by
  rw [Position.parseAfterFirst] at h
  split_ifs at h with h1 h2
  · injection h with h
    injection h with ha hb
    exact Or.inl hb.symm
  · cases hT : nextToken toks with
    | none => rw [hT] at h; exact (PRes.noConfusion h)
    | some r =>
      rcases r with ⟨bd, toks2⟩
      simp only [hT] at h
      exact Or.inr (parseBSHP_wf bd toks2 rem p h)
  · exact Or.inr (parseBSHP_wf first toks rem p h)

lemma position_parse_wf (b rem : Bytes) (p : Position)
    (h : Position.parse b = .ok (rem, p)) :
    p = Position.startpos ∨
      (p.board.length = 9 ∧ (∀ r ∈ p.board, r.length = 9) ∧
       1 ≤ p.ply ∧ p.ply < 4294967296) := by
  rw [Position.parse] at h
  cases hT : nextToken b with
  | none => rw [hT] at h; exact (PRes.noConfusion h)
  | some r =>
    rcases r with ⟨first, toks⟩
    simp only [hT] at h
    split_ifs at h with h1
    · cases hT2 : nextToken toks with
      | none => rw [hT2] at h; exact (PRes.noConfusion h)
      | some r2 =>
        rcases r2 with ⟨first2, toks2⟩
        simp only [hT2] at h
        exact parseAfterFirst_wf first2 toks2 rem p h
    · exact parseAfterFirst_wf first toks rem p h

end PositionLemmas

/-- C2 counterexample: the unconditional position round trip fails.  The
string "9/9/9/9/9/9/9/9/9 b 99P5P 1" decodes successfully to a position
whose first-mover pawn count is 104 (99 + 5 by saturating addition), its
canonical form is "sfen 9/9/9/9/9/9/9/9/9 b 104P 1", and re-parsing that
form fails with InvalidInput at offset 27 because the hand grammar reads
at most two count digits. -/
theorem c2_counterexample :
    positionFromStr "9/9/9/9/9/9/9/9/9 b 99P5P 1" =
      .ok ⟨.sente, Board.empty, ⟨⟨104, 0, 0, 0, 0, 0, 0⟩, Hand.empty⟩, 1⟩ ∧
    fmtPosition ⟨.sente, Board.empty, ⟨⟨104, 0, 0, 0, 0, 0, 0⟩, Hand.empty⟩, 1⟩ =
      "sfen 9/9/9/9/9/9/9/9/9 b 104P 1".data ∧
    positionFromStr (String.mk (fmtPosition
        ⟨.sente, Board.empty, ⟨⟨104, 0, 0, 0, 0, 0, 0⟩, Hand.empty⟩, 1⟩)) =
      .err (.invalidInput 27 "hand piece expected") := by
  refine ⟨by decide, by decide, by decide⟩

/-- C2 (amended): whenever a string decodes to a Position in which every
hand count is at most 99, formatting that Position produces a string that
re-parses to the structurally equal Position, and the round trip is
stable: any position the re-formatted string decodes to formats back to
the same string. -/
theorem c2_position_roundtrip (s : String) (p : Position)
    (hok : positionFromStr s = .ok p)
    (hh : ∀ sd k, p.hands.getc sd k ≤ 99) :
    positionFromStr (String.mk (fmtPosition p)) = .ok p ∧
    ∀ q : Position, positionFromStr (String.mk (fmtPosition p)) = .ok q →
      fmtPosition q = fmtPosition p := by
  have hparse : ∃ rem, Position.parse (Bytes.ofString s) = .ok (rem, p) := by
    unfold positionFromStr parseComplete at hok
    cases hPp : Position.parse (Bytes.ofString s) with
    | panic => rw [hPp] at hok; exact (PRes.noConfusion hok)
    | err e => rw [hPp] at hok; exact (PRes.noConfusion hok)
    | ok r =>
      rcases r with ⟨rem, q⟩
      simp only [hPp] at hok
      by_cases hemp : rem.buf.isEmpty = true
      · rw [if_pos hemp] at hok
        injection hok with hq2
        exact ⟨rem, by rw [hq2]⟩
      · rw [if_neg hemp] at hok
        exact (PRes.noConfusion hok)
  obtain ⟨rem, hparse⟩ := hparse
  have hmain : positionFromStr (String.mk (fmtPosition p)) = .ok p := by
    by_cases hsp : p = Position.startpos
    · subst hsp
      decide
    · rcases position_parse_wf (Bytes.ofString s) rem p hparse with h1 | hwf
      · exact absurd h1 hsp
      · obtain ⟨h9, hroww, hply1, hplyB⟩ := hwf
        have hpf := position_parse_fmt p hsp h9 hroww hh hply1 hplyB
        unfold positionFromStr parseComplete
        rw [show Bytes.ofString (String.mk (fmtPosition p)) = ⟨fmtPosition p, 0⟩ from rfl]
        simp only [hpf]
        simp
  exact ⟨hmain, fun q hq => by rw [hmain] at hq; injection hq with hq; rw [hq]⟩

/-- C2 witness: the theorem applied to the empty-board position
"9/9/9/9/9/9/9/9/9 b - 1", whose hand counts are all zero. -/
theorem c2_position_roundtrip_witness :
    positionFromStr "9/9/9/9/9/9/9/9/9 b - 1" =
      .ok ⟨.sente, Board.empty, Hands.empty, 1⟩ ∧
    (positionFromStr (String.mk (fmtPosition ⟨.sente, Board.empty, Hands.empty, 1⟩)) =
      .ok ⟨.sente, Board.empty, Hands.empty, 1⟩ ∧
     ∀ q : Position,
       positionFromStr (String.mk (fmtPosition ⟨.sente, Board.empty, Hands.empty, 1⟩)) =
         .ok q →
       fmtPosition q = fmtPosition ⟨.sente, Board.empty, Hands.empty, 1⟩) :=
  ⟨by decide,
   c2_position_roundtrip "9/9/9/9/9/9/9/9/9 b - 1" ⟨.sente, Board.empty, Hands.empty, 1⟩
     (by decide) (by intro sd k; cases sd <;> cases k <;> decide)⟩

end Sfen
